import Mathlib

/-!
# A singly linked queue of C strings (`queue.c`)

Shallow embedding of `queue.c`.  Nodes live in a heap indexed by addresses,
pointers are optional addresses (`none` is `NULL`), and every dereference of a
pointer that is `NULL` or not live is reported as `Err.fault`.  Loops and the
recursion of `mergeSort` are bounded by a step budget; exhausting it gives
`Err.timeout`.
-/

namespace QueueC

/-! ## Texts and the libc string functions used by the source -/

/-- A C string without its terminator: the bytes before the first NUL, each nonzero. -/
abbrev Text := List ℕ+

/-- A pointer to a list element: `none` is `NULL`. -/
abbrev Ptr := Option Nat

/-- Caller memory starting at a `char *`: offset to byte. -/
abbrev Buf := Nat → Nat

/-- Number of bytes before the terminator (libc `strlen`). -/
def strlen (s : Text) : Nat := s.length

/-- Byte at offset `i` of a C string; the terminator and what follows read as 0. -/
def byteAt (s : Text) (i : Nat) : Nat :=
  match s.get? i with
  | some c => (c : Nat)
  | none => 0

/-- Memory after libc `strncpy(dst, src, n)`: exactly `n` bytes are written, the bytes of
`src` and then NUL padding once `src` is exhausted. -/
def strncpy (dst : Buf) (src : Text) (n : Nat) : Buf :=
  fun i => if i < n then byteAt src i else dst i

/-- Memory after the store `*(p + i) = b`. -/
def poke (dst : Buf) (i : Nat) (b : Nat) : Buf :=
  fun j => if j = i then b else dst j

/-- Text held by a buffer of `n` bytes: the nonzero bytes before the first NUL. -/
def readText (b : Buf) : Nat → Nat → Text
  | 0, _ => []
  | n + 1, i => if h : 0 < b i then ⟨b i, h⟩ :: readText b n (i + 1) else []

/-- Result of libc `strcmp`: the difference of the first pair of differing bytes (as unsigned
bytes), a missing byte being the terminator 0; zero when the strings are equal. -/
def strcmp : Text → Text → Int
  | [], [] => 0
  | [], b :: _ => - ((b : Nat) : Int)
  | a :: _, [] => ((a : Nat) : Int)
  | a :: as, b :: bs => if a = b then strcmp as bs else ((a : Nat) : Int) - ((b : Nat) : Int)

/-- Modulus of `size_t` arithmetic. -/
def SIZE_MOD : Nat := 2 ^ 64

/-- Subtraction of `size_t` values, wrapping modulo `2 ^ 64`. -/
def size_sub (a b : Nat) : Nat := (a % SIZE_MOD + (SIZE_MOD - b % SIZE_MOD)) % SIZE_MOD

/-! ## Data model -/

/-- The list element `list_ele_t`: the owned string and the link to the next element.
The value buffer is owned by the element alone, so it is kept inside the element. -/
structure Node where
  value : Text
  next : Ptr
deriving DecidableEq

/-- Modelled from the spec: the declaration of `queue_t` lives in `queue.h`, which is
not part of the source; its fields are the ones `queue.c` uses (`head`, `tail`, `size`),
and `size` is the integer element count. -/
structure Queue where
  head : Ptr
  tail : Ptr
  size : Int
deriving DecidableEq

/-- The element heap: address to live element (`none`: not allocated, or freed). -/
abbrev Heap := Nat → Option Node

/-- The memory an operation works on: the element heap and the queue record that the
handle `q` points to (`none`: the handle is `NULL`). -/
structure Mem where
  heap : Heap
  q : Option Queue

/-- Ways an execution can stop without a result. -/
inductive Err where
  | fault
  | timeout
deriving DecidableEq

/-- Heap with address `a` rebound. -/
def update (h : Heap) (a : Nat) (v : Option Node) : Heap :=
  fun x => if x = a then v else h x

/-- Heap after `malloc(sizeof(list_ele_t))` returned `a`: a live element whose fields are
not yet meaningful. -/
def alloc (h : Heap) (a : Nat) : Heap := update h a (some ⟨[], none⟩)

/-- Heap after `free` of the element at `a` (and of its value). -/
def free (h : Heap) (a : Nat) : Heap := update h a none

/-- Read of `p->...`: faults on `NULL` and on an address that is not live. -/
def load (h : Heap) (p : Ptr) : Except Err Node :=
  match p with
  | none => .error .fault
  | some a =>
    match h a with
    | none => .error .fault
    | some n => .ok n

/-- Store `a->next = p`. -/
def setNext (h : Heap) (a : Nat) (p : Ptr) : Except Err Heap :=
  match h a with
  | none => .error .fault
  | some n => .ok (update h a (some { n with next := p }))

/-- Store into the value buffer of `a` so that it holds the text `v`. -/
def setValue (h : Heap) (a : Nat) (v : Text) : Except Err Heap :=
  match h a with
  | none => .error .fault
  | some n => .ok (update h a (some { n with value := v }))

/-- Text left in a fresh buffer of `strlen(s) + 1` bytes by
`strncpy(buf, s, strlen(s)); *(buf + strlen(s)) = 0`. -/
def copyText (s : Text) : Text :=
  readText (poke (strncpy (fun _ => 0) s (strlen s)) (strlen s) 0) (strlen s + 1) 0

/-! ## Operations -/

/-- Source `q_new`: `ok` tells whether `malloc` of the queue record succeeded. -/
def q_new (heap : Heap) (ok : Bool) : Mem :=
  if ok then { heap := heap, q := some { head := none, tail := none, size := 0 } }
  else { heap := heap, q := none }

/-- Source `q_insert_head`: `nodeAlloc` is what `malloc` of the element returned and
`valOk` whether `malloc` of the value buffer succeeded. -/
def q_insert_head (m : Mem) (s : Text) (nodeAlloc : Ptr) (valOk : Bool) :
    Except Err (Bool × Mem) :=
  match m.q with
  | none => .ok (false, m)
  | some q =>
    match nodeAlloc with
    | none => .ok (false, m)
    | some newh =>
      let h1 := alloc m.heap newh
      if valOk = false then .ok (false, { m with heap := free h1 newh })
      else
        match setValue h1 newh (copyText s) with
        | .error e => .error e
        | .ok h2 =>
          match setNext h2 newh q.head with
          | .error e => .error e
          | .ok h3 =>
            let tail := if q.size = 0 then some newh else q.tail
            .ok (true, { heap := h3, q := some { head := some newh, tail := tail, size := q.size + 1 } })

/-- Source `q_insert_tail`, with the same allocation results as `q_insert_head`. -/
def q_insert_tail (m : Mem) (s : Text) (nodeAlloc : Ptr) (valOk : Bool) :
    Except Err (Bool × Mem) :=
  match m.q with
  | none => .ok (false, m)
  | some q =>
    match nodeAlloc with
    | none => .ok (false, m)
    | some node =>
      let h1 := alloc m.heap node
      match setNext h1 node none with
      | .error e => .error e
      | .ok h2 =>
        if valOk = false then .ok (false, { m with heap := free h2 node })
        else
          match setValue h2 node (copyText s) with
          | .error e => .error e
          | .ok h3 =>
            if q.size = 0 then
              .ok (true, { heap := h3, q := some { head := some node, tail := some node, size := q.size + 1 } })
            else
              match q.tail with
              | none => .error .fault
              | some t =>
                match setNext h3 t (some node) with
                | .error e => .error e
                | .ok h4 =>
                  .ok (true, { heap := h4, q := some { head := q.head, tail := some node, size := q.size + 1 } })

/-- Outcome of `q_remove_head`: the return value, the memory and the caller buffer. -/
structure Removed where
  ret : Bool
  mem : Mem
  buf : Option Buf

/-- Source `q_remove_head`: `sp` is the caller buffer (`none`: `NULL`) and `bufsize` its
capacity, a `size_t`. -/
def q_remove_head (m : Mem) (sp : Option Buf) (bufsize : Nat) : Except Err Removed :=
  match m.q with
  | none => .ok ⟨false, m, sp⟩
  | some q =>
    match q.head with
    | none => .ok ⟨false, m, sp⟩
    | some a =>
      match m.heap a with
      | none => .error .fault
      | some tmp =>
        let tmplen := strlen tmp.value
        let cpylen := if tmplen < size_sub bufsize 1 then tmplen else size_sub bufsize 1
        let sp1 := sp.map (fun b => poke (strncpy b tmp.value cpylen) cpylen 0)
        .ok ⟨true,
             { heap := free m.heap a,
               q := some { head := tmp.next, tail := q.tail, size := q.size - 1 } },
             sp1⟩

/-- Value of an integer as a C `int`: the 32-bit two's complement representative. -/
def to_int (x : Int) : Int := (x + 2 ^ 31) % 2 ^ 32 - 2 ^ 31

/-- Source `q_size`: the returned `int` and the memory after the call. -/
def q_size (m : Mem) : Int × Mem :=
  match m.q with
  | none => (0, m)
  | some q => (to_int q.size, m)

/-- The `while (next)` loop of `q_reverse`; the state is the heap, `q->head`, `pre` and
`next`, and the result is the heap and `q->head` at loop exit. -/
def reverse_loop : Nat → Heap → Ptr → Ptr → Ptr → Except Err (Heap × Ptr)
  | 0, _, _, _, _ => .error .timeout
  | fuel + 1, h, head, pre, next =>
    match next with
    | none => .ok (h, head)
    | some n =>
      match h n with
      | none => .error .fault
      | some nn =>
        match setNext h n pre with
        | .error e => .error e
        | .ok h1 => reverse_loop fuel h1 (some n) (some n) nn.next

/-- Source `q_reverse`. -/
def q_reverse (fuel : Nat) (m : Mem) : Except Err Mem :=
  match m.q with
  | none => .ok m
  | some q =>
    match q.head with
    | none => .ok m
    | some a =>
      match m.heap a with
      | none => .error .fault
      | some hn =>
        match setNext m.heap a none with
        | .error e => .error e
        | .ok h1 =>
          match reverse_loop fuel h1 (some a) (some a) hn.next with
          | .error e => .error e
          | .ok (h2, head) =>
            .ok { heap := h2, q := some { head := head, tail := some a, size := q.size } }

/-- Store `*iter = v` of `merge`: `iter = none` is `&head`, `iter = some a` is `&a->next`. -/
def storeIter (h : Heap) (head : Ptr) (iter : Option Nat) (v : Ptr) : Except Err (Heap × Ptr) :=
  match iter with
  | none => .ok (h, v)
  | some a =>
    match setNext h a v with
    | .error e => .error e
    | .ok h1 => .ok (h1, head)

/-- Read `*iter` of `merge`. -/
def readIter (h : Heap) (head : Ptr) (iter : Option Nat) : Except Err Ptr :=
  match iter with
  | none => .ok head
  | some a =>
    match h a with
    | none => .error .fault
    | some n => .ok n.next

/-- The `for` loop of `merge`; the state is the heap, the local `head`, `iter`, `left` and
`right`, and the result is the heap and `head` at the `break`. -/
def merge_loop : Nat → Heap → Ptr → Option Nat → Ptr → Ptr → Except Err (Heap × Ptr)
  | 0, _, _, _, _, _ => .error .timeout
  | fuel + 1, h, head, iter, left, right =>
    match left with
    | none => storeIter h head iter right
    | some l =>
      match right with
      | none => storeIter h head iter left
      | some r =>
        match h l, h r with
        | some ln, some rn =>
          if strcmp ln.value rn.value < 0 then
            match storeIter h head iter left with
            | .error e => .error e
            | .ok (h1, head1) =>
              match load h1 left with
              | .error e => .error e
              | .ok ln1 =>
                match readIter h1 head1 iter with
                | .error e => .error e
                | .ok none => .error .fault
                | .ok (some it) => merge_loop fuel h1 head1 (some it) ln1.next right
          else
            match storeIter h head iter right with
            | .error e => .error e
            | .ok (h1, head1) =>
              match load h1 right with
              | .error e => .error e
              | .ok rn1 =>
                match readIter h1 head1 iter with
                | .error e => .error e
                | .ok none => .error .fault
                | .ok (some it) => merge_loop fuel h1 head1 (some it) left rn1.next
        | _, _ => .error .fault

/-- Source `merge`: the heap after the merge and the returned head. -/
def merge (fuel : Nat) (h : Heap) (left right : Ptr) : Except Err (Heap × Ptr) :=
  merge_loop fuel h none none left right

/-- The slow/fast `for` loop of `mergeSort`; the result is `slow` at loop exit. -/
def split_walk : Nat → Heap → Ptr → Ptr → Except Err Ptr
  | 0, _, _, _ => .error .timeout
  | fuel + 1, h, slow, fast =>
    match fast with
    | none => .ok slow
    | some f =>
      match h f with
      | none => .error .fault
      | some fn =>
        match fn.next with
        | none => .ok slow
        | some f2 =>
          match load h slow with
          | .error e => .error e
          | .ok sn =>
            match h f2 with
            | none => .error .fault
            | some f2n => split_walk fuel h sn.next f2n.next

/-- Source `mergeSort`: `depth` bounds the recursion and `fuel` each loop.  The left
argument of `merge` is evaluated first; the two calls work on disjoint chains. -/
def mergeSort : Nat → Nat → Heap → Ptr → Except Err (Heap × Ptr)
  | 0, _, _, _ => .error .timeout
  | depth + 1, fuel, h, head =>
    match head with
    | none => .ok (h, head)
    | some a =>
      match h a with
      | none => .error .fault
      | some hn =>
        match hn.next with
        | none => .ok (h, head)
        | some _ =>
          match split_walk fuel h head hn.next with
          | .error e => .error e
          | .ok none => .error .fault
          | .ok (some s) =>
            match h s with
            | none => .error .fault
            | some sn =>
              match setNext h s none with
              | .error e => .error e
              | .ok h1 =>
                match mergeSort depth fuel h1 head with
                | .error e => .error e
                | .ok (h2, l) =>
                  match mergeSort depth fuel h2 sn.next with
                  | .error e => .error e
                  | .ok (h3, r) => merge fuel h3 l r

/-- The `for` loop of `q_sort` that moves `q->tail` to the last element. -/
def tail_walk : Nat → Heap → Ptr → Except Err Ptr
  | 0, _, _ => .error .timeout
  | fuel + 1, h, tail =>
    match load h tail with
    | .error e => .error e
    | .ok tn =>
      match tn.next with
      | none => .ok tail
      | some _ => tail_walk fuel h tn.next

/-- Source `q_sort`. -/
def q_sort (fuel : Nat) (m : Mem) : Except Err Mem :=
  match m.q with
  | none => .ok m
  | some q =>
    match q.head with
    | none => .ok m
    | some _ =>
      match mergeSort fuel fuel m.heap q.head with
      | .error e => .error e
      | .ok (h1, head) =>
        match tail_walk fuel h1 q.tail with
        | .error e => .error e
        | .ok tail => .ok { heap := h1, q := some { head := head, tail := tail, size := q.size } }

/-! ## Sequences of calls -/

/-- One call of an insertion or removal operation, with the results of its allocations. -/
inductive Op where
  | insert_head (s : Text) (nodeAlloc : Ptr) (valOk : Bool)
  | insert_tail (s : Text) (nodeAlloc : Ptr) (valOk : Bool)
  | remove_head (sp : Option Buf) (bufsize : Nat)

/-- Memory after a sequence of calls, with the number of insertion calls and of removal
calls that returned true. -/
structure Tally where
  mem : Mem
  inserted : Nat
  removed : Nat

/-- Run one call and update the tally. -/
def stepOp (t : Tally) : Op → Except Err Tally
  | .insert_head s na vo =>
    match q_insert_head t.mem s na vo with
    | .error e => .error e
    | .ok (r, m1) => .ok { mem := m1, inserted := if r then t.inserted + 1 else t.inserted, removed := t.removed }
  | .insert_tail s na vo =>
    match q_insert_tail t.mem s na vo with
    | .error e => .error e
    | .ok (r, m1) => .ok { mem := m1, inserted := if r then t.inserted + 1 else t.inserted, removed := t.removed }
  | .remove_head sp n =>
    match q_remove_head t.mem sp n with
    | .error e => .error e
    | .ok r => .ok { mem := r.mem, inserted := t.inserted, removed := if r.ret then t.removed + 1 else t.removed }

/-- Run a sequence of calls from left to right. -/
def runOps (t : Tally) : List Op → Except Err Tally
  | [] => .ok t
  | op :: ops =>
    match stepOp t op with
    | .error e => .error e
    | .ok t1 => runOps t1 ops

/-- The element address a call receives from `malloc`, if any. -/
def allocated : Op → Ptr
  | .insert_head _ na _ => na
  | .insert_tail _ na _ => na
  | .remove_head _ _ => none

/-- An address handed out by `malloc` is not live at the time of the call. -/
def freshAt (m : Mem) (p : Ptr) : Prop :=
  match p with
  | none => True
  | some a => m.heap a = none

/-- The allocator behaves like `malloc` along a sequence of calls: every element it
hands out is not live at the time of the call. -/
def FreshAllocs (t : Tally) : List Op → Prop
  | [] => True
  | op :: ops =>
    freshAt t.mem (allocated op) ∧
      match stepOp t op with
      | .error _ => True
      | .ok t1 => FreshAllocs t1 ops

/-- The heap with no live element. -/
def emptyHeap : Heap := fun _ => none

/-- Memory after a sequence of calls on a queue freshly created in the empty heap. -/
def afterOps (ops : List Op) : Mem :=
  match runOps ⟨q_new emptyHeap true, 0, 0⟩ ops with
  | .ok t => t.mem
  | .error _ => q_new emptyHeap false

/-! ## Chains -/

/-- The elements at addresses `as`, in this order, are linked by `next` from `p` up to `q`. -/
def Seg (h : Heap) : Ptr → List Nat → Ptr → Prop
  | p, [], q => p = q
  | p, a :: as, q =>
    p = some a ∧
      match h a with
      | some n => Seg h n.next as q
      | none => False

/-- Value stored at an address (empty if the address is not live). -/
def valueAt (h : Heap) (a : Nat) : Text :=
  match h a with
  | some n => n.value
  | none => []

/-- The values stored at a list of addresses. -/
def values (h : Heap) (as : List Nat) : List Text := as.map (valueAt h)

/-- Addresses met by following `next` from `p`, for at most `fuel` elements. -/
def walk : Nat → Heap → Ptr → List Nat
  | 0, _, _ => []
  | fuel + 1, h, p =>
    match p with
    | none => []
    | some a =>
      match h a with
      | none => []
      | some n => a :: walk fuel h n.next

/-- The values of the queue read from head to tail, for at most `fuel` elements. -/
def contents (fuel : Nat) (m : Mem) : List Text :=
  match m.q with
  | none => []
  | some q => values m.heap (walk fuel m.heap q.head)

/-- The data-model invariants of a present queue whose elements are, head to tail, at the
addresses `as`: the chain from `head` is `as` and ends in `NULL`, `size` is its length,
and `tail` is its last element when there is one. -/
def Wf (m : Mem) (as : List Nat) : Prop :=
  match m.q with
  | none => False
  | some q => Seg m.heap q.head as none ∧ q.size = (as.length : Int) ∧ (as ≠ [] → q.tail = as.getLast?)

/-- Ascending order of two texts under `strcmp`. -/
def TextLe (s t : Text) : Prop := strcmp s t ≤ 0

/-- Result of the merge on address lists, with values read through `v`. -/
def mergeA (v : Nat → Text) : List Nat → List Nat → List Nat
  | [], r => r
  | a :: l, [] => a :: l
  | a :: l, b :: r =>
    if strcmp (v a) (v b) < 0 then a :: mergeA v l (b :: r) else b :: mergeA v (a :: l) r
termination_by l r => l.length + r.length

/-! ## Reachable memories -/

/-- Memories reachable from `q_new` by calls of the public operations that return, the
allocator handing out only elements that are not live. -/
inductive Reachable : Mem → Prop where
  | new (heap : Heap) (ok : Bool) : Reachable (q_new heap ok)
  | insert_head (m m1 : Mem) (s : Text) (na : Ptr) (vo r : Bool) :
      Reachable m → freshAt m na → q_insert_head m s na vo = .ok (r, m1) → Reachable m1
  | insert_tail (m m1 : Mem) (s : Text) (na : Ptr) (vo r : Bool) :
      Reachable m → freshAt m na → q_insert_tail m s na vo = .ok (r, m1) → Reachable m1
  | remove_head (m : Mem) (sp : Option Buf) (n : Nat) (r : Removed) :
      Reachable m → q_remove_head m sp n = .ok r → Reachable r.mem
  | reverse (m m1 : Mem) (fuel : Nat) :
      Reachable m → q_reverse fuel m = .ok m1 → Reachable m1
  | sort (m m1 : Mem) (fuel : Nat) :
      Reachable m → q_sort fuel m = .ok m1 → Reachable m1

/-- Pointer reached from `p` by following `next` exactly `k` times (`NULL` once the chain
has ended). -/
def follow : Nat → Heap → Ptr → Ptr
  | 0, _, p => p
  | k + 1, h, p =>
    match p with
    | none => none
    | some a =>
      match h a with
      | none => none
      | some n => follow k h n.next

/-- The first data-model invariant: `size` is 0 exactly when `head` and `tail` are both
`NULL`. -/
def EmptyIff (q : Queue) : Prop := q.size = 0 ↔ (q.head = none ∧ q.tail = none)

/-! ## Example queues -/

/-- Queue after `insert_tail` of "c", "a", "b". -/
def exampleCAB : Mem :=
  afterOps [.insert_tail [99] (some 1) true, .insert_tail [97] (some 2) true,
    .insert_tail [98] (some 3) true]

/-- Queue after `insert_tail` of "x". -/
def exampleX : Mem := afterOps [.insert_tail [120] (some 1) true]

/-- Queue after `insert_tail` of "x" and `insert_head` of "y". -/
def exampleYX : Mem :=
  afterOps [.insert_tail [120] (some 1) true, .insert_head [121] (some 2) true]

/-- Queue after `insert_head` of "a". -/
def exampleA : Mem := afterOps [.insert_head [97] (some 1) true]

/-- Queue after `insert_head` of "a" and one `remove_head`. -/
def exampleARemoved : Mem :=
  afterOps [.insert_head [97] (some 1) true, .remove_head none 0]

/-- Queue after `insert_head` of "hello". -/
def exampleHello : Mem := afterOps [.insert_head [104, 101, 108, 108, 111] (some 1) true]

/-- Queue after `insert_tail` of "a" twice: two elements with equal values. -/
def exampleDup : Mem :=
  afterOps [.insert_tail [97] (some 1) true, .insert_tail [97] (some 2) true]

/-- Caller buffer whose bytes are all 255 before the call. -/
def filledBuf : Buf := fun _ => 255

/-- The `size` field of the queue record, 0 for an absent queue. -/
def sizeField (m : Mem) : Int :=
  match m.q with
  | none => 0
  | some q => q.size

/-- The sequence of `n` calls of `insert_head` of "a" whose allocations succeed and hand
out the elements `base`, `base + 1`, and so on. -/
def insertsFrom : Nat → Nat → List Op
  | _, 0 => []
  | base, n + 1 => .insert_head [97] (some base) true :: insertsFrom (base + 1) n

/-- A sequence with failed allocations, a removal and a removal from the empty queue. -/
def exampleOps : List Op :=
  [.insert_head [97] (some 1) true, .insert_tail [98] none true,
   .insert_tail [99] (some 2) false, .insert_tail [100] (some 2) true,
   .remove_head none 0, .remove_head none 0, .remove_head none 0]

/-- Two chains of two elements each, holding "a", "c" and "a", "b". -/
def exampleTwoChains : Heap := fun x =>
  if x = 1 then some ⟨[97], some 2⟩
  else if x = 2 then some ⟨[99], none⟩
  else if x = 3 then some ⟨[97], some 4⟩
  else if x = 4 then some ⟨[98], none⟩
  else none

/-! ## Deciding the specification predicates -/

instance Seg.decide (h : Heap) : ∀ (l : List Nat) (p q : Ptr), Decidable (Seg h p l q)
  | [], p, q => inferInstanceAs (Decidable (p = q))
  | a :: as, p, q =>
    match hh : h a with
    | none => isFalse (by simp [Seg, hh])
    | some n =>
      match Seg.decide h as n.next q with
      | isTrue ht => if hp : p = some a then isTrue (by simp [Seg, hh, hp, ht]) else isFalse (by simp [Seg, hp])
      | isFalse hf => isFalse (by simp [Seg, hh, hf])

instance Wf.decide (m : Mem) (as : List Nat) : Decidable (Wf m as) := by
  unfold Wf
  cases m.q with
  | none => exact inferInstanceAs (Decidable False)
  | some q => exact inferInstanceAs (Decidable (_ ∧ _ ∧ _))

instance freshAt.decide (m : Mem) : (p : Ptr) → Decidable (freshAt m p)
  | none => isTrue trivial
  | some a => inferInstanceAs (Decidable (m.heap a = none))

instance FreshAllocs.decide : ∀ (ops : List Op) (t : Tally), Decidable (FreshAllocs t ops)
  | [], _ => isTrue trivial
  | op :: ops, t =>
    match h : stepOp t op with
    | .error _ =>
      decidable_of_iff (freshAt t.mem (allocated op)) (by simp [FreshAllocs, h])
    | .ok t1 =>
      have := FreshAllocs.decide ops t1
      decidable_of_iff (freshAt t.mem (allocated op) ∧ FreshAllocs t1 ops)
        (by simp [FreshAllocs, h])

instance EmptyIff.decide (q : Queue) : Decidable (EmptyIff q) := by
  unfold EmptyIff; infer_instance

instance TextLe.decide (s t : Text) : Decidable (TextLe s t) := by
  unfold TextLe; infer_instance

/-- Ascending order of the values at two addresses. -/
def AddrLe (v : Nat → Text) (a b : Nat) : Prop := TextLe (v a) (v b)

/-- The two heaps have the same live addresses and the same value at each of them. -/
def SameValues (h h1 : Heap) : Prop := ∀ x, (h1 x).map Node.value = (h x).map Node.value

/-! # Theorems -/

/-! ## Heap updates -/

theorem update_same (h : Heap) (a : Nat) (v : Option Node) : update h a v a = v := by
  simp [update]

theorem update_other (h : Heap) (a x : Nat) (v : Option Node) (hx : x ≠ a) :
    update h a v x = h x := by
  simp [update, hx]

theorem setNext_live (h : Heap) (a : Nat) (p : Ptr) (n : Node) (hn : h a = some n) :
    setNext h a p = .ok (update h a (some { n with next := p })) := by
  simp [setNext, hn]

/-! ## Chains -/

theorem Seg_nil (h : Heap) (p q : Ptr) : Seg h p [] q ↔ p = q := by
  simp [Seg]

theorem Seg_cons (h : Heap) (p q : Ptr) (a : Nat) (as : List Nat) :
    Seg h p (a :: as) q ↔ p = some a ∧ ∃ n, h a = some n ∧ Seg h n.next as q := by
  cases hh : h a <;> simp [Seg, hh]

theorem Seg_frame (h h1 : Heap) : ∀ (as : List Nat) (p q : Ptr),
    (∀ a ∈ as, h1 a = h a) → Seg h p as q → Seg h1 p as q
  | [], _, _, _, hs => by simpa [Seg] using hs
  | a :: as, p, q, hf, hs => by
    rw [Seg_cons] at hs ⊢
    obtain ⟨hp, n, hn, hr⟩ := hs
    refine ⟨hp, n, ?_, Seg_frame h h1 as _ _ (fun x hx => hf x (List.mem_cons_of_mem _ hx)) hr⟩
    rw [hf a (List.mem_cons_self _ _)]; exact hn

theorem Seg_append (h : Heap) : ∀ (l1 l2 : List Nat) (p q : Ptr),
    Seg h p (l1 ++ l2) q ↔ ∃ r, Seg h p l1 r ∧ Seg h r l2 q
  | [], l2, p, q => by simp [Seg]
  | a :: l1, l2, p, q => by
    simp only [List.cons_append, Seg_cons]
    constructor
    · rintro ⟨hp, n, hn, hr⟩
      obtain ⟨r, h1, h2⟩ := (Seg_append h l1 l2 _ _).1 hr
      exact ⟨r, ⟨hp, n, hn, h1⟩, h2⟩
    · rintro ⟨r, ⟨hp, n, hn, h1⟩, h2⟩
      exact ⟨hp, n, hn, (Seg_append h l1 l2 _ _).2 ⟨r, h1, h2⟩⟩

theorem Seg_live (h : Heap) : ∀ (as : List Nat) (p q : Ptr) (x : Nat),
    Seg h p as q → x ∈ as → ∃ n, h x = some n
  | [], _, _, _, _, hx => by simp at hx
  | a :: as, p, q, x, hs, hx => by
    rw [Seg_cons] at hs
    obtain ⟨_, n, hn, hr⟩ := hs
    rcases List.mem_cons.1 hx with rfl | hx
    · exact ⟨n, hn⟩
    · exact Seg_live h as _ _ x hr hx

theorem Seg_head (h : Heap) (as : List Nat) (p : Ptr) (hs : Seg h p as none) :
    p = as.head? := by
  cases as with
  | nil => simpa [Seg] using hs
  | cons a as => rw [Seg_cons] at hs; simpa using hs.1

theorem Seg_functional (h : Heap) : ∀ (l1 l2 : List Nat) (p : Ptr),
    Seg h p l1 none → Seg h p l2 none → l1 = l2
  | [], [], _, _, _ => rfl
  | [], b :: l2, p, h1, h2 => by
    rw [Seg_nil] at h1; rw [Seg_cons] at h2; rw [h1] at h2; simp at h2
  | a :: l1, [], p, h1, h2 => by
    rw [Seg_nil] at h2; rw [Seg_cons] at h1; rw [h2] at h1; simp at h1
  | a :: l1, b :: l2, p, h1, h2 => by
    rw [Seg_cons] at h1 h2
    obtain ⟨hp1, n1, hn1, hr1⟩ := h1
    obtain ⟨hp2, n2, hn2, hr2⟩ := h2
    have hab : a = b := by rw [hp1] at hp2; simpa using hp2
    subst hab
    rw [hn1] at hn2
    have hn : n1 = n2 := by simpa using hn2
    subst hn
    rw [Seg_functional h l1 l2 _ hr1 hr2]

theorem Seg_nodup (h : Heap) : ∀ (as : List Nat) (p : Ptr), Seg h p as none → as.Nodup
  | [], _, _ => List.nodup_nil
  | a :: as, p, hs => by
    have hs0 := hs
    rw [Seg_cons] at hs
    obtain ⟨hp, n, hn, hr⟩ := hs
    refine List.nodup_cons.2 ⟨?_, Seg_nodup h as _ hr⟩
    intro hmem
    obtain ⟨l1, l2, hl⟩ := List.append_of_mem hmem
    rw [hl] at hr
    obtain ⟨r, _, h2⟩ := (Seg_append h l1 (a :: l2) _ _).1 hr
    have hr2 : r = some a := ((Seg_cons h r none a l2).1 h2).1
    rw [hr2, ← hp] at h2
    have := Seg_functional h _ _ p hs0 h2
    have hlen := congrArg List.length this
    rw [hl] at hlen
    simp at hlen
    omega

/-! ## Order of texts under `strcmp` -/

theorem strcmp_total : ∀ (s t : Text), ¬ strcmp s t < 0 → strcmp t s ≤ 0
  | [], [], _ => by simp [strcmp]
  | [], b :: _, hn => by
    simp [strcmp] at hn
  | a :: _, [], _ => by simp [strcmp]
  | a :: as, b :: bs, hn => by
    by_cases hab : a = b
    · subst hab
      simp only [strcmp, if_true] at hn ⊢
      exact strcmp_total as bs hn
    · have hba : ¬ b = a := fun e => hab e.symm
      simp only [strcmp, hab, hba, if_false] at hn ⊢
      omega

theorem strcmp_trans : ∀ (s t u : Text), strcmp s t ≤ 0 → strcmp t u ≤ 0 → strcmp s u ≤ 0
  | [], _, [], _, _ => by simp [strcmp]
  | [], _, c :: _, _, _ => by simp [strcmp]
  | a :: _, [], _, h1, _ => by
    simp [strcmp] at h1
  | a :: _, b :: _, [], _, h2 => by
    simp [strcmp] at h2
  | a :: as, b :: bs, c :: cs, h1, h2 => by
    have hinj : ∀ x y : ℕ+, (x : Nat) = (y : Nat) → x = y := fun x y e => PNat.eq e
    by_cases hab : a = b
    · subst hab
      by_cases hac : a = c
      · subst hac
        simp only [strcmp, if_true] at h1 h2 ⊢
        exact strcmp_trans as bs cs h1 h2
      · simp only [strcmp, hac, if_false, if_true] at h1 h2 ⊢
        exact h2
    · by_cases hbc : b = c
      · subst hbc
        simp only [strcmp, hab, if_false, if_true] at h1 h2 ⊢
        exact h1
      · simp only [strcmp, hab, hbc, if_false] at h1 h2
        have hac : ¬ a = c := by
          intro e; subst e
          have : (a : Nat) = (b : Nat) := by omega
          exact hab (hinj _ _ this)
        simp only [strcmp, hac, if_false]
        omega

theorem strcmp_eq_zero : ∀ (s t : Text), strcmp s t = 0 → s = t
  | [], [], _ => rfl
  | [], b :: _, h => by
    simp [strcmp] at h
  | a :: _, [], h => by
    simp [strcmp] at h
  | a :: as, b :: bs, h => by
    by_cases hab : a = b
    · subst hab
      simp only [strcmp, if_true] at h
      rw [strcmp_eq_zero as bs h]
    · simp only [strcmp, hab, if_false] at h
      exact absurd (PNat.eq (by omega)) hab

/-! ## The merge on address lists -/

theorem mergeA_nil_left (v : Nat → Text) (r : List Nat) : mergeA v [] r = r := by
  rw [mergeA]

theorem mergeA_nil_right (v : Nat → Text) (l : List Nat) : mergeA v l [] = l := by
  cases l with
  | nil => rw [mergeA]
  | cons a l => rw [mergeA]

theorem mergeA_cons_lt (v : Nat → Text) (a b : Nat) (l r : List Nat)
    (hlt : strcmp (v a) (v b) < 0) : mergeA v (a :: l) (b :: r) = a :: mergeA v l (b :: r) := by
  rw [mergeA, if_pos hlt]

theorem mergeA_cons_ge (v : Nat → Text) (a b : Nat) (l r : List Nat)
    (hge : ¬ strcmp (v a) (v b) < 0) : mergeA v (a :: l) (b :: r) = b :: mergeA v (a :: l) r := by
  rw [mergeA, if_neg hge]

theorem mergeA_perm (v : Nat → Text) : ∀ (n : Nat) (l r : List Nat), l.length + r.length = n →
    (mergeA v l r).Perm (l ++ r)
  | _, [], r, _ => by rw [mergeA_nil_left]; exact List.Perm.refl _
  | _, a :: l, [], _ => by rw [mergeA_nil_right]; simp
  | n + 1, a :: l, b :: r, hn => by
    by_cases hlt : strcmp (v a) (v b) < 0
    · rw [mergeA_cons_lt v a b l r hlt]
      exact List.Perm.cons a (mergeA_perm v n l (b :: r) (by simp at hn ⊢; omega))
    · rw [mergeA_cons_ge v a b l r hlt]
      have ih := mergeA_perm v n (a :: l) r (by simp at hn ⊢; omega)
      exact (List.Perm.cons b ih).trans (List.perm_middle.symm)

theorem mergeA_sorted (v : Nat → Text) : ∀ (n : Nat) (l r : List Nat), l.length + r.length = n →
    l.Sorted (AddrLe v) → r.Sorted (AddrLe v) → (mergeA v l r).Sorted (AddrLe v)
  | _, [], r, _, _, hr => by rw [mergeA_nil_left]; exact hr
  | _, a :: l, [], _, hl, _ => by rw [mergeA_nil_right]; exact hl
  | n + 1, a :: l, b :: r, hn, hl, hr => by
    by_cases hlt : strcmp (v a) (v b) < 0
    · rw [mergeA_cons_lt v a b l r hlt]
      have ih := mergeA_sorted v n l (b :: r) (by simp at hn ⊢; omega) (List.Sorted.of_cons hl) hr
      refine List.sorted_cons.2 ⟨?_, ih⟩
      intro x hx
      have hx1 := (mergeA_perm v n l (b :: r) (by simp at hn ⊢; omega)).subset hx
      rcases List.mem_append.1 hx1 with hx2 | hx2
      · exact List.rel_of_sorted_cons hl x hx2
      · have hab : AddrLe v a b := le_of_lt hlt
        rcases List.mem_cons.1 hx2 with rfl | hx3
        · exact hab
        · exact strcmp_trans _ _ _ hab (List.rel_of_sorted_cons hr x hx3)
    · rw [mergeA_cons_ge v a b l r hlt]
      have ih := mergeA_sorted v n (a :: l) r (by simp at hn ⊢; omega) hl (List.Sorted.of_cons hr)
      refine List.sorted_cons.2 ⟨?_, ih⟩
      intro x hx
      have hx1 := (mergeA_perm v n (a :: l) r (by simp at hn ⊢; omega)).subset hx
      have hba : AddrLe v b a := strcmp_total _ _ hlt
      rcases List.mem_append.1 hx1 with hx2 | hx2
      · rcases List.mem_cons.1 hx2 with rfl | hx3
        · exact hba
        · exact strcmp_trans _ _ _ hba (List.rel_of_sorted_cons hl x hx3)
      · exact List.rel_of_sorted_cons hr x hx2

/-! ## Values are never rewritten -/

theorem SameValues.refl (h : Heap) : SameValues h h := fun _ => rfl

theorem SameValues.trans {h h1 h2 : Heap} (a : SameValues h h1) (b : SameValues h1 h2) :
    SameValues h h2 := fun x => (b x).trans (a x)

theorem SameValues.valueAt {h h1 : Heap} (hs : SameValues h h1) : valueAt h1 = valueAt h := by
  funext x
  have := hs x
  unfold QueueC.valueAt
  cases hx : h x <;> cases hx1 : h1 x <;> simp [hx, hx1] at this ⊢
  exact this

theorem SameValues.values {h h1 : Heap} (hs : SameValues h h1) (as : List Nat) :
    values h1 as = values h as := by
  unfold QueueC.values; rw [hs.valueAt]

theorem SameValues.update_next (h : Heap) (a : Nat) (n : Node) (p : Ptr) (hn : h a = some n) :
    SameValues h (update h a (some { n with next := p })) := by
  intro x
  by_cases hx : x = a
  · subst hx; simp [update, hn]
  · simp [update, hx]

theorem valueAt_live (h : Heap) (a : Nat) (n : Node) (hn : h a = some n) :
    valueAt h a = n.value := by
  simp [valueAt, hn]

/-! ## The loop of `merge` -/

theorem storeIter_spec (h : Heap) (head : Ptr) (iter : Option Nat) (v : Ptr)
    (hit : ∀ p, iter = some p → ∃ n, h p = some n) :
    ∃ h1 head1, storeIter h head iter v = .ok (h1, head1) ∧
      readIter h1 head1 iter = .ok v ∧
      (iter ≠ none → head1 = head) ∧
      (∀ x, iter ≠ some x → h1 x = h x) ∧
      SameValues h h1 := by
  cases iter with
  | none =>
    exact ⟨h, v, rfl, rfl, fun hc => absurd rfl hc, fun _ _ => rfl, SameValues.refl h⟩
  | some p =>
    obtain ⟨n, hn⟩ := hit p rfl
    refine ⟨update h p (some { n with next := v }), head, ?_, ?_, fun _ => rfl, ?_, ?_⟩
    · simp [storeIter, setNext, hn]
    · simp [readIter, update]
    · intro x hx
      have : x ≠ p := fun e => hx (by rw [e])
      simp [update, this]
    · exact SameValues.update_next h p n v hn

theorem readIter_congr (h1 h2 : Heap) (head1 head2 : Ptr) (iter : Option Nat)
    (hh : ∀ p, iter = some p → h2 p = h1 p) (hd : iter = none → head2 = head1) :
    readIter h2 head2 iter = readIter h1 head1 iter := by
  cases iter with
  | none => simp [readIter, hd rfl]
  | some p => simp [readIter, hh p rfl]

theorem merge_loop_spec : ∀ (fuel : Nat) (h : Heap) (head : Ptr) (iter : Option Nat)
    (left right : Ptr) (ls rs : List Nat),
    ls.length + rs.length < fuel →
    Seg h left ls none → Seg h right rs none → (ls ++ rs).Nodup →
    (∀ p, iter = some p → p ∉ ls ++ rs ∧ ∃ n, h p = some n) →
    ∃ h1 head1 out,
      merge_loop fuel h head iter left right = .ok (h1, head1) ∧
      readIter h1 head1 iter = .ok out ∧
      Seg h1 out (mergeA (valueAt h) ls rs) none ∧
      (iter ≠ none → head1 = head) ∧
      (∀ x, x ∉ ls ++ rs → iter ≠ some x → h1 x = h x) ∧
      SameValues h h1
  | 0, _, _, _, _, _, _, _, hf, _, _, _, _ => by omega
  | fuel + 1, h, head, iter, left, right, ls, rs, hf, hl, hr, hnd, hit => by
    have hlive : ∀ p, iter = some p → ∃ n, h p = some n := fun p hp => (hit p hp).2
    have hout : ∀ x, x ∈ ls ++ rs → iter ≠ some x := fun x hx e => (hit x e).1 hx
    cases ls with
    | nil =>
      rw [Seg_nil] at hl
      subst hl
      obtain ⟨h1, head1, hst, hrd, hhd, hfr, hsv⟩ := storeIter_spec h head iter right hlive
      refine ⟨h1, head1, right, ?_, hrd, ?_, hhd, fun x _ hx => hfr x hx, hsv⟩
      · simp [merge_loop, hst]
      · rw [mergeA_nil_left]
        exact Seg_frame h h1 rs _ _ (fun a ha => hfr a (hout a (by simpa using ha))) hr
    | cons a ls1 =>
      have hl0 := hl
      rw [Seg_cons] at hl
      obtain ⟨hleft, an, han, hl1⟩ := hl
      subst hleft
      cases rs with
      | nil =>
        rw [Seg_nil] at hr
        subst hr
        obtain ⟨h1, head1, hst, hrd, hhd, hfr, hsv⟩ := storeIter_spec h head iter (some a) hlive
        refine ⟨h1, head1, some a, ?_, hrd, ?_, hhd, fun x _ hx => hfr x hx, hsv⟩
        · simp [merge_loop, hst]
        · rw [mergeA_nil_right]
          exact Seg_frame h h1 _ _ _ (fun x hx => hfr x (hout x (by simpa using hx))) hl0
      | cons b rs1 =>
        have hr0 := hr
        rw [Seg_cons] at hr
        obtain ⟨hright, bn, hbn, hr1⟩ := hr
        subst hright
        have hnd1 : (ls1 ++ b :: rs1).Nodup := (List.nodup_cons.1 hnd).2
        have ha_notin : a ∉ ls1 ++ b :: rs1 := (List.nodup_cons.1 hnd).1
        have hnd2 : ((a :: ls1) ++ rs1).Nodup := by
          have := hnd
          rw [List.nodup_append] at this ⊢
          refine ⟨this.1, (List.nodup_cons.1 this.2.1).2, ?_⟩
          intro x hx1 hx2
          exact this.2.2 hx1 (List.mem_cons_of_mem _ hx2)
        have hb_notin : b ∉ (a :: ls1) ++ rs1 := by
          have := hnd
          rw [List.nodup_append] at this
          intro hx
          rcases List.mem_append.1 hx with hx1 | hx1
          · exact this.2.2 hx1 (List.mem_cons_self _ _)
          · exact (List.nodup_cons.1 this.2.1).1 hx1
        by_cases hlt : strcmp an.value bn.value < 0
        · obtain ⟨h1, head1, hst, hrd, hhd, hfr, hsv⟩ := storeIter_spec h head iter (some a) hlive
          have h1a : h1 a = some an := by
            rw [hfr a (hout a (by simp))]; exact han
          have hl2 : Seg h1 an.next ls1 none :=
            Seg_frame h h1 _ _ _ (fun x hx => hfr x (hout x (by simp [hx]))) hl1
          have hr2 : Seg h1 (some b) (b :: rs1) none :=
            Seg_frame h h1 _ _ _ (fun x hx => hfr x (hout x (by
              rcases List.mem_cons.1 hx with e | e
              · simp [e]
              · simp [e]))) hr0
          obtain ⟨h2, head2, out, hrun, hrd2, hseg, hhd2, hfr2, hsv2⟩ :=
            merge_loop_spec fuel h1 head1 (some a) an.next (some b) ls1 (b :: rs1)
              (by simp at hf ⊢; omega) hl2 hr2 hnd1
              (fun p hp => by
                have : p = a := by simpa using hp.symm
                subst this
                exact ⟨ha_notin, an, h1a⟩)
          have hhead2 : head2 = head1 := hhd2 (by simp)
          refine ⟨h2, head2, some a, ?_, ?_, ?_, ?_, ?_, hsv.trans hsv2⟩
          · simp [merge_loop, han, hbn, hlt, hst, load, h1a, hrd, hrun]
          · rw [readIter_congr h1 h2 head1 head2 iter ?_ (fun _ => hhead2), hrd]
            intro p hp
            have hp1 := (hit p hp).1
            apply hfr2 p
            · intro hx; exact hp1 (List.mem_cons_of_mem _ hx)
            · intro e
              have : a = p := by simpa using e
              subst this
              exact hp1 (by simp)
          · rw [mergeA_cons_lt _ a b ls1 rs1 (by
              rw [valueAt_live h a an han, valueAt_live h b bn hbn]; exact hlt)]
            rw [Seg_cons]
            refine ⟨rfl, ?_⟩
            simp only [readIter] at hrd2
            cases h2a : h2 a with
            | none => simp [h2a] at hrd2
            | some n2 =>
              simp [h2a] at hrd2
              refine ⟨n2, rfl, ?_⟩
              rw [hrd2, ← hsv.valueAt]
              exact hseg
          · intro hi; rw [hhead2]; exact hhd hi
          · intro x hx hix
            have hxa : x ≠ a := fun e => hx (by simp [e])
            rw [hfr2 x (fun hm => hx (List.mem_cons_of_mem _ hm)) (by
              intro e; exact hxa (by simpa using e.symm)), hfr x hix]
        · obtain ⟨h1, head1, hst, hrd, hhd, hfr, hsv⟩ := storeIter_spec h head iter (some b) hlive
          have h1b : h1 b = some bn := by
            rw [hfr b (hout b (by simp))]; exact hbn
          have hr2 : Seg h1 bn.next rs1 none :=
            Seg_frame h h1 _ _ _ (fun x hx => hfr x (hout x (by simp [hx]))) hr1
          have hl2 : Seg h1 (some a) (a :: ls1) none :=
            Seg_frame h h1 _ _ _ (fun x hx => hfr x (hout x (by
              rcases List.mem_cons.1 hx with e | e
              · simp [e]
              · simp [e]))) hl0
          obtain ⟨h2, head2, out, hrun, hrd2, hseg, hhd2, hfr2, hsv2⟩ :=
            merge_loop_spec fuel h1 head1 (some b) (some a) bn.next (a :: ls1) rs1
              (by simp at hf ⊢; omega) hl2 hr2 hnd2
              (fun p hp => by
                have : p = b := by simpa using hp.symm
                subst this
                exact ⟨hb_notin, bn, h1b⟩)
          have hhead2 : head2 = head1 := hhd2 (by simp)
          refine ⟨h2, head2, some b, ?_, ?_, ?_, ?_, ?_, hsv.trans hsv2⟩
          · simp [merge_loop, han, hbn, hlt, hst, load, h1b, hrd, hrun]
          · rw [readIter_congr h1 h2 head1 head2 iter ?_ (fun _ => hhead2), hrd]
            intro p hp
            have hp1 := (hit p hp).1
            apply hfr2 p
            · intro hx
              apply hp1
              rcases List.mem_append.1 hx with e | e
              · exact List.mem_append_left _ e
              · exact List.mem_append_right _ (List.mem_cons_of_mem _ e)
            · intro e
              have : b = p := by simpa using e
              subst this
              exact hp1 (by simp)
          · rw [mergeA_cons_ge _ a b ls1 rs1 (by
              rw [valueAt_live h a an han, valueAt_live h b bn hbn]; exact hlt)]
            rw [Seg_cons]
            refine ⟨rfl, ?_⟩
            simp only [readIter] at hrd2
            cases h2b : h2 b with
            | none => simp [h2b] at hrd2
            | some n2 =>
              simp [h2b] at hrd2
              refine ⟨n2, rfl, ?_⟩
              rw [hrd2, ← hsv.valueAt]
              exact hseg
          · intro hi; rw [hhead2]; exact hhd hi
          · intro x hx hix
            have hxb : x ≠ b := fun e => hx (by simp [e])
            rw [hfr2 x (fun hm => hx (by
              rcases List.mem_append.1 hm with e | e
              · exact List.mem_append_left _ e
              · exact List.mem_append_right _ (List.mem_cons_of_mem _ e))) (by
              intro e; exact hxb (by simpa using e.symm)), hfr x hix]

/-! ## The split and the recursion of `mergeSort` -/

theorem split_walk_spec : ∀ (fuel : Nat) (h : Heap) (xs ys : List Nat) (slow fast : Ptr),
    Seg h slow xs none → Seg h fast ys none → ys.length / 2 < xs.length →
    ys.length / 2 < fuel →
    split_walk fuel h slow fast = .ok (xs[ys.length / 2]?)
  | 0, _, _, _, _, _, _, _, _, hf => by omega
  | fuel + 1, h, xs, ys, slow, fast, hx, hy, hlen, hf => by
    match ys, hy with
    | [], hy =>
      rw [Seg_nil] at hy
      subst hy
      have := Seg_head h xs slow hx
      simp [split_walk, this, List.head?_eq_getElem?]
    | [y], hy =>
      rw [Seg_cons] at hy
      obtain ⟨hfast, yn, hyn, hy1⟩ := hy
      rw [Seg_nil] at hy1
      have := Seg_head h xs slow hx
      simp [split_walk, hfast, hyn, hy1, this, List.head?_eq_getElem?]
    | y1 :: y2 :: ys1, hy =>
      rw [Seg_cons] at hy
      obtain ⟨hfast, n1, hn1, hy1⟩ := hy
      rw [Seg_cons] at hy1
      obtain ⟨hn1next, n2, hn2, hy2⟩ := hy1
      match xs, hx with
      | [], _ => simp at hlen
      | x :: xs1, hx =>
        rw [Seg_cons] at hx
        obtain ⟨hslow, xn, hxn, hx1⟩ := hx
        have hk : (y1 :: y2 :: ys1).length / 2 = ys1.length / 2 + 1 := by
          simp only [List.length_cons]; omega
        have ih := split_walk_spec fuel h xs1 ys1 xn.next n2.next hx1 hy2
          (by simp only [List.length_cons] at hlen; omega) (by omega)
        rw [hk]
        simp [split_walk, hfast, hn1, hn1next, hn2, hslow, load, hxn, ih]

theorem Seg_split (h : Heap) (as : List Nat) (p : Ptr) (k : Nat) (s : Nat)
    (hs : Seg h p as none) (hk : as[k]? = some s) :
    as = as.take k ++ s :: as.drop (k + 1) ∧
      ∃ sn, h s = some sn ∧
        Seg (update h s (some { sn with next := none })) p (as.take k ++ [s]) none ∧
        Seg (update h s (some { sn with next := none })) sn.next (as.drop (k + 1)) none := by
  have hklt : k < as.length := by
    rcases Nat.lt_or_ge k as.length with hlt | hge
    · exact hlt
    · rw [List.getElem?_eq_none hge] at hk; simp at hk
  have hsk : as[k] = s := by
    rw [List.getElem?_eq_getElem hklt] at hk; simpa using hk
  have hdec : as = as.take k ++ s :: as.drop (k + 1) := by
    rw [← hsk, ← List.drop_eq_getElem_cons hklt, List.take_append_drop]
  have hnd := Seg_nodup h as p hs
  rw [hdec] at hs hnd
  obtain ⟨r, h1, h2⟩ := (Seg_append h _ _ _ _).1 hs
  rw [Seg_cons] at h2
  obtain ⟨hr, sn, hsn, h3⟩ := h2
  subst hr
  have hnotin1 : s ∉ as.take k := by
    intro hm
    rw [List.nodup_append] at hnd
    exact hnd.2.2 hm (List.mem_cons_self _ _)
  have hnotin2 : s ∉ as.drop (k + 1) := by
    rw [List.nodup_append] at hnd
    exact (List.nodup_cons.1 hnd.2.1).1
  refine ⟨hdec, sn, hsn, ?_, ?_⟩
  · rw [Seg_append]
    refine ⟨some s, ?_, ?_⟩
    · refine Seg_frame h _ _ _ _ (fun x hx => ?_) h1
      exact update_other h s x _ (fun e => hnotin1 (e ▸ hx))
    · rw [Seg_cons]
      exact ⟨rfl, _, update_same h s _, by simp [Seg]⟩
  · refine Seg_frame h _ _ _ _ (fun x hx => ?_) h3
    exact update_other h s x _ (fun e => hnotin2 (e ▸ hx))

theorem mergeSort_spec : ∀ (depth fuel : Nat) (h : Heap) (head : Ptr) (as : List Nat),
    Seg h head as none → as.length < depth → as.length < fuel →
    ∃ h1 head1 out,
      mergeSort depth fuel h head = .ok (h1, head1) ∧
      Seg h1 head1 out none ∧ out.Perm as ∧ out.Sorted (AddrLe (valueAt h)) ∧
      (∀ x, x ∉ as → h1 x = h x) ∧ SameValues h h1
  | 0, _, _, _, _, _, hd, _ => by omega
  | depth + 1, fuel, h, head, as, hs, hd, hf => by
    match as, hs with
    | [], hs =>
      rw [Seg_nil] at hs
      subst hs
      exact ⟨h, none, [], by simp [mergeSort], by simp [Seg], List.Perm.refl _,
        List.sorted_nil, fun _ _ => rfl, SameValues.refl h⟩
    | [a], hs =>
      have hs0 := hs
      rw [Seg_cons] at hs
      obtain ⟨hhead, an, han, hs1⟩ := hs
      rw [Seg_nil] at hs1
      subst hhead
      exact ⟨h, some a, [a], by simp [mergeSort, han, hs1], hs0, List.Perm.refl _,
        List.sorted_singleton a, fun _ _ => rfl, SameValues.refl h⟩
    | a :: b :: rest, hs =>
      have hs0 := hs
      rw [Seg_cons] at hs
      obtain ⟨hhead, an, han, hs1⟩ := hs
      subst hhead
      have hanext : an.next = some b := ((Seg_cons h _ _ b rest).1 hs1).1
      have hlen : (a :: b :: rest).length = rest.length + 2 := by simp
      have hklt : (b :: rest).length / 2 < (a :: b :: rest).length := by
        simp only [List.length_cons]; omega
      have hwalk := split_walk_spec fuel h (a :: b :: rest) (b :: rest) (some a) an.next
        hs0 hs1 hklt (by omega)
      generalize hkdef : (b :: rest).length / 2 = k at hwalk hklt
      have hkval : k = (rest.length + 1) / 2 := by rw [← hkdef]; simp
      obtain ⟨s, hsk⟩ : ∃ s, (a :: b :: rest)[k]? = some s :=
        ⟨_, List.getElem?_eq_getElem hklt⟩
      rw [hsk] at hwalk
      obtain ⟨hdec, sn, hsn, hL, hR⟩ := Seg_split h (a :: b :: rest) (some a) k s hs0 hsk
      rw [hanext] at hwalk
      have hl1len : ((a :: b :: rest).take k ++ [s]).length = k + 1 := by
        simp [List.length_take]; omega
      have hl2len : ((a :: b :: rest).drop (k + 1)).length = rest.length + 2 - (k + 1) := by
        simp
      generalize hl1 : (a :: b :: rest).take k ++ [s] = l1 at hL hl1len
      generalize hl2 : (a :: b :: rest).drop (k + 1) = l2 at hR hl2len
      have hdec2 : a :: b :: rest = l1 ++ l2 := by
        rw [← hl1, ← hl2, List.append_assoc]; exact hdec
      have hnd : (l1 ++ l2).Nodup := by rw [← hdec2]; exact Seg_nodup h _ _ hs0
      have hdisj : ∀ x, x ∈ l1 → x ∈ l2 → False := fun x h1 h2 =>
        (List.nodup_append.1 hnd).2.2 h1 h2
      obtain ⟨h1, hh1⟩ : ∃ h1, h1 = update h s (some { sn with next := none }) := ⟨_, rfl⟩
      rw [← hh1] at hL hR
      have hs_in : s ∈ l1 := by rw [← hl1]; simp
      have hsv1 : SameValues h h1 := by rw [hh1]; exact SameValues.update_next h s sn none hsn
      -- left half
      obtain ⟨h2, l, outL, hrunL, hsegL, hpermL, hsortL, hfrL, hsv2⟩ :=
        mergeSort_spec depth fuel h1 (some a) l1 hL (by omega) (by omega)
      have hR2 : Seg h2 sn.next l2 none :=
        Seg_frame h1 h2 _ _ _ (fun x hx => hfrL x (fun hx1 => hdisj x hx1 hx)) hR
      -- right half
      obtain ⟨h3, r, outR, hrunR, hsegR, hpermR, hsortR, hfrR, hsv3⟩ :=
        mergeSort_spec depth fuel h2 sn.next l2 hR2 (by omega) (by omega)
      have hsegL3 : Seg h3 l outL none :=
        Seg_frame h2 h3 _ _ _ (fun x hx => hfrR x (fun hx2 => hdisj x (hpermL.subset hx) hx2)) hsegL
      have hpermLR : (outL ++ outR).Perm (a :: b :: rest) := by
        rw [hdec2]; exact List.Perm.append hpermL hpermR
      have hndLR : (outL ++ outR).Nodup := by
        rw [hpermLR.nodup_iff, hdec2]; exact hnd
      obtain ⟨h4, head4, out, hrunM, hrd, hsegM, _, hfrM, hsv4⟩ :=
        merge_loop_spec fuel h3 none none l r outL outR
          (by rw [← List.length_append, hpermLR.length_eq]; exact hf)
          hsegL3 hsegR hndLR (fun p hp => by simp at hp)
      have hout : head4 = out := by simpa [readIter] using hrd
      subst hout
      have hv3 : valueAt h3 = valueAt h := by
        rw [hsv3.valueAt, hsv2.valueAt, hsv1.valueAt]
      have hv1 : valueAt h1 = valueAt h := hsv1.valueAt
      have hv2 : valueAt h2 = valueAt h := by rw [hsv2.valueAt, hsv1.valueAt]
      rw [hv3] at hsegM
      rw [hv1] at hsortL
      rw [hv2] at hsortR
      refine ⟨h4, head4, mergeA (valueAt h) outL outR, ?_, hsegM, ?_, ?_, ?_, ?_⟩
      · simp [mergeSort, han, hanext, hwalk, hsn, setNext, ← hh1, hrunL, hrunR, merge, hrunM]
      · exact (mergeA_perm _ _ outL outR rfl).trans hpermLR
      · exact mergeA_sorted _ _ outL outR rfl hsortL hsortR
      · intro x hx
        have hx1 : x ∉ l1 := fun hm => hx (by rw [hdec2]; exact List.mem_append_left _ hm)
        have hx2 : x ∉ l2 := fun hm => hx (by rw [hdec2]; exact List.mem_append_right _ hm)
        have hxs : x ≠ s := fun e => hx1 (e ▸ hs_in)
        rw [hfrM x (fun hm => hx (hpermLR.subset hm)) (by simp), hfrR x hx2, hfrL x hx1, hh1]
        exact update_other h s x _ hxs
      · exact ((hsv1.trans hsv2).trans hsv3).trans hsv4

theorem update_update (h : Heap) (a : Nat) (v w : Option Node) :
    update (update h a v) a w = update h a w := by
  funext x
  by_cases hx : x = a <;> simp [update, hx]

theorem update_fresh (h : Heap) (a : Nat) (hf : h a = none) : update h a none = h := by
  funext x
  by_cases hx : x = a
  · subst hx; simp [update, hf]
  · simp [update, hx]

theorem Wf_iff (m : Mem) (as : List Nat) :
    Wf m as ↔ ∃ q, m.q = some q ∧ Seg m.heap q.head as none ∧ q.size = (as.length : Int) ∧
      (as ≠ [] → q.tail = as.getLast?) := by
  unfold Wf
  cases m.q <;> simp

theorem Seg_last (h : Heap) : ∀ (as : List Nat) (p : Ptr) (t : Nat),
    Seg h p (as ++ [t]) none → ∃ n, h t = some n ∧ n.next = none
  | [], p, t, hs => by
    rw [List.nil_append, Seg_cons] at hs
    obtain ⟨_, n, hn, h1⟩ := hs
    exact ⟨n, hn, by simpa [Seg] using h1⟩
  | a :: as, p, t, hs => by
    rw [List.cons_append, Seg_cons] at hs
    obtain ⟨_, n, _, h1⟩ := hs
    exact Seg_last h as _ t h1

/-! ## The string copy of the insertions -/

theorem readText_spec : ∀ (s : Text) (b : Buf) (i n : Nat),
    (∀ j (hj : j < s.length), b (i + j) = (s[j] : Nat)) → b (i + s.length) = 0 →
    s.length < n → readText b n i = s
  | [], b, i, n, _, hz, hn => by
    cases n with
    | zero => simp at hn
    | succ n =>
      have : b i = 0 := by simpa using hz
      simp [readText, this]
  | c :: cs, b, i, n, hb, hz, hn => by
    cases n with
    | zero => simp at hn
    | succ n =>
      have h0 : b i = (c : Nat) := by simpa using hb 0 (by simp)
      have hpos : 0 < b i := by rw [h0]; exact c.pos
      have ih := readText_spec cs b (i + 1) n
        (fun j hj => by
          have := hb (j + 1) (by simpa using hj)
          simpa [Nat.add_assoc, Nat.add_comm 1 j] using this)
        (by simpa [Nat.add_assoc, Nat.add_comm 1] using hz)
        (by simpa using hn)
      rw [readText, dif_pos hpos, ih]
      congr 1
      exact PNat.eq h0

theorem byteAt_lt (s : Text) (j : Nat) (hj : j < s.length) : byteAt s j = (s[j] : Nat) := by
  simp [byteAt, List.getElem?_eq_getElem hj]

theorem byteAt_ge (s : Text) (j : Nat) (hj : s.length ≤ j) : byteAt s j = 0 := by
  simp [byteAt, List.getElem?_eq_none hj]

theorem copyText_eq (s : Text) : copyText s = s := by
  unfold copyText strlen
  apply readText_spec
  · intro j hj
    have : j ≠ s.length := by omega
    simp [poke, strncpy, this, hj, byteAt_lt s j hj]
  · simp [poke]
  · omega

/-! ## The tail walk and `q_sort` -/

theorem tail_walk_spec : ∀ (fuel : Nat) (h : Heap) (t : Nat) (l : List Nat),
    Seg h (some t) (t :: l) none → l.length < fuel →
    tail_walk fuel h (some t) = .ok ((t :: l).getLast?)
  | 0, _, _, _, _, hf => by omega
  | fuel + 1, h, t, l, hs, hf => by
    rw [Seg_cons] at hs
    obtain ⟨_, tn, htn, h1⟩ := hs
    match l, h1 with
    | [], h1 =>
      rw [Seg_nil] at h1
      simp [tail_walk, load, htn, h1]
    | b :: l1, h1 =>
      have h10 := h1
      rw [Seg_cons] at h1
      have hb : tn.next = some b := h1.1
      rw [hb] at h10
      have ih := tail_walk_spec fuel h b l1 h10 (by simp at hf; omega)
      simp [tail_walk, load, htn, hb, ih, List.getLast?_cons_cons]

theorem q_sort_spec (fuel : Nat) (m : Mem) (as : List Nat) (hwf : Wf m as)
    (hf : as.length < fuel) :
    ∃ m1 out, q_sort fuel m = .ok m1 ∧ Wf m1 out ∧ out.Perm as ∧
      out.Sorted (AddrLe (valueAt m.heap)) ∧ SameValues m.heap m1.heap ∧
      (∀ x, x ∉ as → m1.heap x = m.heap x) ∧
      (∀ q q1, m.q = some q → m1.q = some q1 → q1.size = q.size) := by
  rw [Wf_iff] at hwf
  obtain ⟨q, hq, hseg, hsize, htail⟩ := hwf
  match as, hseg, htail with
  | [], hseg, _ =>
    rw [Seg_nil] at hseg
    refine ⟨m, [], by simp [q_sort, hq, hseg], ?_, List.Perm.refl _, List.sorted_nil,
      SameValues.refl _, fun _ _ => rfl, ?_⟩
    · rw [Wf_iff]; exact ⟨q, hq, by simp [Seg, hseg], hsize, by simp⟩
    · intro q0 q1 h0 h1; rw [h0] at h1; simp at h1; rw [h1]
  | a :: rest, hseg, htail =>
    have hhead : q.head = some a := ((Seg_cons _ _ _ _ _).1 hseg).1
    obtain ⟨h1, head1, out, hrun, hseg1, hperm, hsort, hfr, hsv⟩ :=
      mergeSort_spec fuel fuel m.heap q.head (a :: rest) hseg hf hf
    have htl := htail (by simp)
    obtain ⟨t, ht⟩ : ∃ t, (a :: rest).getLast? = some t :=
      ⟨_, List.getLast?_eq_getLast _ (by simp)⟩
    have htmem : t ∈ out := hperm.symm.subset (List.mem_of_getLast?_eq_some ht)
    obtain ⟨o1, o2, ho⟩ := List.append_of_mem htmem
    have hseg2 : Seg h1 (some t) (t :: o2) none := by
      rw [ho] at hseg1
      obtain ⟨r, _, hr2⟩ := (Seg_append h1 _ _ _ _).1 hseg1
      have : r = some t := ((Seg_cons _ _ _ _ _).1 hr2).1
      rw [this] at hr2; exact hr2
    have hwalk := tail_walk_spec fuel h1 t o2 hseg2 (by
      have := hperm.length_eq
      rw [ho] at this
      simp at this hf; omega)
    have hlast : (t :: o2).getLast? = out.getLast? := by
      rw [ho, List.getLast?_append_of_ne_nil _ (by simp)]
    refine ⟨{ heap := h1, q := some { head := head1, tail := out.getLast?, size := q.size } },
      out, ?_, ?_, hperm, hsort, hsv, hfr, ?_⟩
    · rw [hhead] at hrun
      rw [ht] at htl
      simp [q_sort, hq, hhead, hrun, htl, hwalk, hlast]
    · rw [Wf_iff]
      exact ⟨_, rfl, hseg1, by rw [hsize, hperm.length_eq], fun _ => rfl⟩
    · intro q0 q1 h0 h1; rw [hq] at h0; simp at h0 h1; rw [← h1, ← h0]

/-! ## `q_reverse` -/

theorem reverse_loop_spec : ∀ (fuel : Nat) (h : Heap) (pre next : Ptr) (done rem : List Nat),
    rem.length < fuel → Seg h pre done none → Seg h next rem none →
    (∀ x, x ∈ rem → x ∉ done) →
    ∃ h1 head1, reverse_loop fuel h pre pre next = .ok (h1, head1) ∧
      Seg h1 head1 (rem.reverse ++ done) none ∧
      (∀ x, x ∉ rem → h1 x = h x) ∧ SameValues h h1
  | 0, _, _, _, _, _, hf, _, _, _ => by omega
  | fuel + 1, h, pre, next, done, rem, hf, hd, hr, hdisj => by
    match rem, hr, hdisj with
    | [], hr, _ =>
      rw [Seg_nil] at hr
      exact ⟨h, pre, by simp [reverse_loop, hr], by simpa using hd, fun _ _ => rfl,
        SameValues.refl h⟩
    | n :: rem1, hr, hdisj =>
      have hnd := Seg_nodup h _ _ hr
      rw [Seg_cons] at hr
      obtain ⟨hnext, nn, hnn, hr1⟩ := hr
      have hn1 : n ∉ rem1 := (List.nodup_cons.1 hnd).1
      have hn2 : n ∉ done := hdisj n (by simp)
      obtain ⟨h1, hh1⟩ : ∃ h1, h1 = update h n (some { nn with next := pre }) := ⟨_, rfl⟩
      have hd1 : Seg h1 (some n) (n :: done) none := by
        rw [Seg_cons]
        refine ⟨rfl, _, by rw [hh1]; exact update_same h n _, ?_⟩
        refine Seg_frame h h1 _ _ _ (fun x hx => ?_) hd
        rw [hh1]; exact update_other h n x _ (fun e => hn2 (e ▸ hx))
      have hr2 : Seg h1 nn.next rem1 none := by
        refine Seg_frame h h1 _ _ _ (fun x hx => ?_) hr1
        rw [hh1]; exact update_other h n x _ (fun e => hn1 (e ▸ hx))
      obtain ⟨h2, head2, hrun, hseg, hfr, hsv⟩ :=
        reverse_loop_spec fuel h1 (some n) nn.next (n :: done) rem1
          (by simp at hf; omega) hd1 hr2
          (fun x hx hm => by
            rcases List.mem_cons.1 hm with e | e
            · exact hn1 (e ▸ hx)
            · exact hdisj x (List.mem_cons_of_mem _ hx) e)
      refine ⟨h2, head2, ?_, ?_, ?_, ?_⟩
      · simp [reverse_loop, hnext, hnn, setNext, ← hh1, hrun]
      · simpa using hseg
      · intro x hx
        have hx1 : x ∉ rem1 := fun hm => hx (List.mem_cons_of_mem _ hm)
        have hx2 : x ≠ n := fun e => hx (by simp [e])
        rw [hfr x hx1, hh1]; exact update_other h n x _ hx2
      · exact (by rw [hh1]; exact SameValues.update_next h n nn pre hnn : SameValues h h1).trans hsv

theorem q_reverse_spec (fuel : Nat) (m : Mem) (as : List Nat) (hwf : Wf m as)
    (hf : as.length ≤ fuel) :
    ∃ m1, q_reverse fuel m = .ok m1 ∧ Wf m1 as.reverse ∧ SameValues m.heap m1.heap ∧
      (∀ x, x ∉ as → m1.heap x = m.heap x) ∧
      ∃ q q1, m.q = some q ∧ m1.q = some q1 ∧ q1.size = q.size ∧
        (as ≠ [] → q1.tail = q.head ∧ q1.head = q.tail) := by
  rw [Wf_iff] at hwf
  obtain ⟨q, hq, hseg, hsize, htail⟩ := hwf
  match as, hseg, htail with
  | [], hseg, _ =>
    rw [Seg_nil] at hseg
    refine ⟨m, by simp [q_reverse, hq, hseg], ?_, SameValues.refl _, fun _ _ => rfl,
      q, q, hq, hq, rfl, by simp⟩
    rw [Wf_iff]; exact ⟨q, hq, by simp [Seg, hseg], hsize, by simp⟩
  | a :: rest, hseg, htail =>
    have hnd := Seg_nodup _ _ _ hseg
    rw [Seg_cons] at hseg
    obtain ⟨hhead, an, han, hrest⟩ := hseg
    have ha : a ∉ rest := (List.nodup_cons.1 hnd).1
    obtain ⟨h1, hh1⟩ : ∃ h1, h1 = update m.heap a (some { an with next := none }) := ⟨_, rfl⟩
    have hd1 : Seg h1 (some a) [a] none := by
      rw [Seg_cons]
      exact ⟨rfl, _, by rw [hh1]; exact update_same _ a _, by simp [Seg]⟩
    have hr1 : Seg h1 an.next rest none := by
      refine Seg_frame _ h1 _ _ _ (fun x hx => ?_) hrest
      rw [hh1]; exact update_other _ a x _ (fun e => ha (e ▸ hx))
    obtain ⟨h2, head2, hrun, hseg2, hfr, hsv⟩ :=
      reverse_loop_spec fuel h1 (some a) an.next [a] rest (by simp at hf; omega) hd1 hr1
        (fun x hx hm => by
          have : x = a := by simpa using hm
          exact ha (this ▸ hx))
    have hseg3 : Seg h2 head2 (a :: rest).reverse none := by simpa using hseg2
    have hhead2 : head2 = q.tail := by
      rw [Seg_head h2 _ _ hseg3, htail (by simp), List.head?_reverse]
    refine ⟨{ heap := h2, q := some { head := head2, tail := some a, size := q.size } },
      ?_, ?_, ?_, ?_, q, _, hq, rfl, rfl, fun _ => ⟨hhead.symm, hhead2⟩⟩
    · simp [q_reverse, hq, hhead, han, setNext, ← hh1, hrun]
    · rw [Wf_iff]
      refine ⟨_, rfl, hseg3, ?_, fun _ => ?_⟩
      · simpa using hsize
      · simp
    · exact (by rw [hh1]; exact SameValues.update_next _ a an none han :
        SameValues m.heap h1).trans hsv
    · intro x hx
      have hx1 : x ∉ rest := fun hm => hx (List.mem_cons_of_mem _ hm)
      have hx2 : x ≠ a := fun e => hx (by simp [e])
      show h2 x = m.heap x
      rw [hfr x hx1, hh1]; exact update_other _ a x _ hx2

/-! ## Insertions -/

theorem q_insert_head_run (m : Mem) (q : Queue) (s : Text) (a : Nat) (hq : m.q = some q) :
    q_insert_head m s (some a) true =
      .ok (true, { heap := update m.heap a (some ⟨s, q.head⟩),
                   q := some { head := some a,
                               tail := if q.size = 0 then some a else q.tail,
                               size := q.size + 1 } }) := by
  simp [q_insert_head, hq, alloc, setValue, setNext, update_same, copyText_eq, update_update]

theorem Mem_eta (m : Mem) (q : Queue) (hq : m.q = some q) :
    ({ heap := m.heap, q := some q } : Mem) = m := by
  cases m; simp_all

theorem q_insert_head_fail (m : Mem) (s : Text) (nodeAlloc : Ptr) (valOk : Bool)
    (hfail : m.q = none ∨ nodeAlloc = none ∨ valOk = false)
    (hfresh : ∀ a, nodeAlloc = some a → m.heap a = none) :
    q_insert_head m s nodeAlloc valOk = .ok (false, m) := by
  cases hq : m.q with
  | none => simp [q_insert_head, hq]
  | some q =>
    cases nodeAlloc with
    | none => simp [q_insert_head, hq]
    | some a =>
      have hv : valOk = false := by simpa [hq] using hfail
      have : free (alloc m.heap a) a = m.heap := by
        unfold free alloc
        rw [update_update, update_fresh _ a (hfresh a rfl)]
      simp [q_insert_head, hq, hv, this, Mem_eta m q hq]

theorem q_insert_tail_fail (m : Mem) (s : Text) (nodeAlloc : Ptr) (valOk : Bool)
    (hfail : m.q = none ∨ nodeAlloc = none ∨ valOk = false)
    (hfresh : ∀ a, nodeAlloc = some a → m.heap a = none) :
    q_insert_tail m s nodeAlloc valOk = .ok (false, m) := by
  cases hq : m.q with
  | none => simp [q_insert_tail, hq]
  | some q =>
    cases nodeAlloc with
    | none => simp [q_insert_tail, hq]
    | some a =>
      have hv : valOk = false := by simpa [hq] using hfail
      have : free (update (alloc m.heap a) a (some ⟨[], none⟩)) a = m.heap := by
        unfold free alloc
        rw [update_update, update_update, update_fresh _ a (hfresh a rfl)]
      simp only [alloc] at this
      simp [q_insert_tail, hq, hv, alloc, setNext, update_same, this, Mem_eta m q hq]

theorem values_frame (h h1 : Heap) (as : List Nat) (hfr : ∀ x ∈ as, h1 x = h x) :
    values h1 as = values h as := by
  unfold values
  apply List.map_congr_left
  intro x hx
  simp [valueAt, hfr x hx]

theorem fresh_not_mem (h : Heap) (p : Ptr) (as : List Nat) (a : Nat)
    (hs : Seg h p as none) (hf : h a = none) : a ∉ as := by
  intro hm
  obtain ⟨n, hn⟩ := Seg_live h as p none a hs hm
  rw [hf] at hn; simp at hn

theorem length_eq_zero_int (as : List Nat) : ((as.length : Int) = 0) ↔ as = [] := by
  cases as <;> simp
  omega

theorem q_insert_head_spec (m : Mem) (q : Queue) (as : List Nat) (s : Text) (a : Nat)
    (hq : m.q = some q) (hwf : Wf m as) (hfresh : m.heap a = none) :
    ∃ m1 q1, q_insert_head m s (some a) true = .ok (true, m1) ∧ m1.q = some q1 ∧
      Wf m1 (a :: as) ∧ values m1.heap (a :: as) = s :: values m.heap as ∧
      q1.head = some a ∧ m1.heap a = some ⟨s, q.head⟩ ∧ q1.size = q.size + 1 ∧
      (as = [] → q1.tail = some a) ∧ (as ≠ [] → q1.tail = q.tail) ∧
      (∀ x, x ≠ a → m1.heap x = m.heap x) := by
  rw [Wf_iff] at hwf
  obtain ⟨q0, hq0, hseg, hsize, htail⟩ := hwf
  rw [hq] at hq0
  have : q0 = q := by simpa using hq0.symm
  subst this
  have hna : a ∉ as := fresh_not_mem _ _ _ _ hseg hfresh
  have hfr : ∀ x ∈ as, update m.heap a (some ⟨s, q0.head⟩) x = m.heap x :=
    fun x hx => update_other _ a x _ (fun e => hna (e ▸ hx))
  have hz : q0.size = 0 ↔ as = [] := by rw [hsize]; exact length_eq_zero_int as
  refine ⟨_, _, q_insert_head_run m q0 s a hq, rfl, ?_, ?_, rfl, update_same _ _ _, rfl, ?_, ?_, ?_⟩
  · rw [Wf_iff]
    refine ⟨_, rfl, ?_, ?_, ?_⟩
    · rw [Seg_cons]
      exact ⟨rfl, _, update_same _ _ _, Seg_frame _ _ _ _ _ hfr hseg⟩
    · simp [hsize]
    · intro _
      by_cases he : as = []
      · subst he; simp [hz]
      · have := htail he
        obtain ⟨b, l, hbl⟩ := List.exists_cons_of_ne_nil he
        simp [hz, he, this, hbl, List.getLast?_cons_cons]
  · simp only [values, List.map_cons]
    congr 1
    · simp [valueAt, update_same]
    · exact values_frame _ _ as hfr
  · intro he; simp [hz, he]
  · intro he; simp [hz, he]
  · intro x hx; exact update_other _ a x _ hx

theorem q_insert_tail_spec (m : Mem) (q : Queue) (as : List Nat) (s : Text) (a : Nat)
    (hq : m.q = some q) (hwf : Wf m as) (hfresh : m.heap a = none) :
    ∃ m1 q1, q_insert_tail m s (some a) true = .ok (true, m1) ∧ m1.q = some q1 ∧
      Wf m1 (as ++ [a]) ∧ values m1.heap (as ++ [a]) = values m.heap as ++ [s] ∧
      q1.tail = some a ∧ m1.heap a = some ⟨s, none⟩ ∧ q1.size = q.size + 1 ∧
      (as = [] → q1.head = some a) ∧
      (as ≠ [] → q1.head = q.head ∧
        ∃ t tn, q.tail = some t ∧ m.heap t = some tn ∧
          m1.heap t = some { tn with next := some a }) := by
  rw [Wf_iff] at hwf
  obtain ⟨q0, hq0, hseg, hsize, htail⟩ := hwf
  rw [hq] at hq0
  have : q0 = q := by simpa using hq0.symm
  subst this
  have hna : a ∉ as := fresh_not_mem _ _ _ _ hseg hfresh
  have hz : q0.size = 0 ↔ as = [] := by rw [hsize]; exact length_eq_zero_int as
  by_cases he : as = []
  · subst he
    have hz0 : q0.size = 0 := hz.2 rfl
    refine ⟨{ heap := update m.heap a (some ⟨s, none⟩),
              q := some { head := some a, tail := some a, size := q0.size + 1 } }, _,
      ?_, rfl, ?_, ?_, rfl, update_same _ _ _, rfl, fun _ => rfl, fun hc => absurd rfl hc⟩
    · simp [q_insert_tail, hq, alloc, setNext, setValue, update_same, copyText_eq,
        update_update, hz0]
    · rw [Wf_iff]
      refine ⟨_, rfl, ?_, by simp [hz0], fun _ => rfl⟩
      rw [List.nil_append, Seg_cons]
      exact ⟨rfl, _, update_same _ _ _, by simp [Seg]⟩
    · simp [values, valueAt, update_same]
  · have hz0 : ¬ q0.size = 0 := fun h0 => he (hz.1 h0)
    obtain ⟨init, t, hit⟩ : ∃ init t, as = init ++ [t] :=
      ⟨as.dropLast, as.getLast he, (List.dropLast_append_getLast he).symm⟩
    have htl : q0.tail = some t := by rw [htail he, hit]; simp
    have hnd := Seg_nodup _ _ _ hseg
    rw [hit] at hseg hnd hna
    obtain ⟨r, hs1, hs2⟩ := (Seg_append _ _ _ _ _).1 hseg
    rw [Seg_cons] at hs2
    obtain ⟨hr, tn, htn, _⟩ := hs2
    subst hr
    have hta : t ≠ a := fun e => hna (by simp [e])
    have hti : t ∉ init := by
      intro hm
      exact (List.nodup_append.1 hnd).2.2 hm (by simp)
    obtain ⟨h3, hh3⟩ : ∃ h3, h3 = update m.heap a (some ⟨s, none⟩) := ⟨_, rfl⟩
    have h3t : h3 t = some tn := by rw [hh3, update_other _ a t _ hta]; exact htn
    obtain ⟨h4, hh4⟩ : ∃ h4, h4 = update h3 t (some { tn with next := some a }) := ⟨_, rfl⟩
    have h4a : h4 a = some ⟨s, none⟩ := by
      rw [hh4, update_other _ t a _ (fun e => hta e.symm), hh3]; exact update_same _ _ _
    have h4t : h4 t = some { tn with next := some a } := by rw [hh4]; exact update_same _ _ _
    have hfr : ∀ x, x ≠ a → x ≠ t → h4 x = m.heap x := by
      intro x hxa hxt
      rw [hh4, update_other _ t x _ hxt, hh3, update_other _ a x _ hxa]
    refine ⟨{ heap := h4, q := some { head := q0.head, tail := some a, size := q0.size + 1 } }, _,
      ?_, rfl, ?_, ?_, rfl, h4a, rfl, fun hc => absurd hc he,
      fun _ => ⟨rfl, t, tn, htl, htn, h4t⟩⟩
    · simp [q_insert_tail, hq, alloc, setNext, setValue, update_same, copyText_eq,
        update_update, hz0, htl, ← hh3, h3t, ← hh4]
    · rw [Wf_iff]
      refine ⟨_, rfl, ?_, ?_, fun _ => by simp⟩
      · show Seg h4 q0.head (as ++ [a]) none
        rw [hit, List.append_assoc, Seg_append]
        refine ⟨some t, Seg_frame _ _ _ _ _ (fun x hx => hfr x ?_ ?_) hs1, ?_⟩
        · intro e; exact hna (by simp [← e, hx])
        · intro e; exact hti (e ▸ hx)
        · rw [List.singleton_append, Seg_cons]
          refine ⟨rfl, _, h4t, ?_⟩
          rw [Seg_cons]
          exact ⟨rfl, _, h4a, by simp [Seg]⟩
      · simp [hsize]
    · show values h4 (as ++ [a]) = values m.heap as ++ [s]
      simp only [values, List.map_append, List.map_cons, List.map_nil]
      congr 1
      · apply List.map_congr_left
        intro x hx
        by_cases hxt : x = t
        · subst hxt; simp [valueAt, h4t, htn]
        · have hxa : x ≠ a := fun e => hna (by rw [← hit, ← e]; exact hx)
          simp [valueAt, hfr x hxa hxt]
      · simp [valueAt, h4a]

/-! ## Removal -/

theorem q_remove_head_spec (m : Mem) (q : Queue) (a : Nat) (as : List Nat) (sp : Option Buf)
    (bufsize : Nat) (hq : m.q = some q) (hwf : Wf m (a :: as)) :
    ∃ an, m.heap a = some an ∧ q.head = some a ∧
      q_remove_head m sp bufsize =
        .ok ⟨true,
             { heap := free m.heap a,
               q := some { head := an.next, tail := q.tail, size := q.size - 1 } },
             sp.map (fun b =>
               poke (strncpy b an.value
                 (if strlen an.value < size_sub bufsize 1 then strlen an.value
                  else size_sub bufsize 1))
                 (if strlen an.value < size_sub bufsize 1 then strlen an.value
                  else size_sub bufsize 1) 0)⟩ ∧
      Wf { heap := free m.heap a,
           q := some { head := an.next, tail := q.tail, size := q.size - 1 } } as ∧
      values (free m.heap a) as = values m.heap as := by
  rw [Wf_iff] at hwf
  obtain ⟨q0, hq0, hseg, hsize, htail⟩ := hwf
  rw [hq] at hq0
  have : q0 = q := by simpa using hq0.symm
  subst this
  have hnd := Seg_nodup _ _ _ hseg
  rw [Seg_cons] at hseg
  obtain ⟨hhead, an, han, hrest⟩ := hseg
  have ha : a ∉ as := (List.nodup_cons.1 hnd).1
  have hfr : ∀ x ∈ as, free m.heap a x = m.heap x :=
    fun x hx => update_other _ a x _ (fun e => ha (e ▸ hx))
  refine ⟨an, han, hhead, ?_, ?_, values_frame _ _ as hfr⟩
  · simp [q_remove_head, hq, hhead, han]
  · rw [Wf_iff]
    refine ⟨_, rfl, Seg_frame _ _ _ _ _ hfr hrest, ?_, ?_⟩
    · simp [hsize]
    · intro he
      obtain ⟨b, l, hbl⟩ := List.exists_cons_of_ne_nil he
      have := htail (by simp)
      simp [this, hbl, List.getLast?_cons_cons]

theorem q_remove_head_empty (m : Mem) (sp : Option Buf) (bufsize : Nat)
    (hm : m.q = none ∨ Wf m []) :
    q_remove_head m sp bufsize = .ok ⟨false, m, sp⟩ := by
  rcases hm with hq | hwf
  · simp [q_remove_head, hq]
  · rw [Wf_iff] at hwf
    obtain ⟨q, hq, hseg, _, _⟩ := hwf
    rw [Seg_nil] at hseg
    simp [q_remove_head, hq, hseg]

theorem walk_spec : ∀ (fuel : Nat) (h : Heap) (p : Ptr) (as : List Nat),
    Seg h p as none → as.length ≤ fuel → walk fuel h p = as
  | fuel, h, p, [], hs, _ => by
    rw [Seg_nil] at hs
    cases fuel <;> simp [walk, hs]
  | 0, _, _, a :: as, _, hf => by simp at hf
  | fuel + 1, h, p, a :: as, hs, hf => by
    rw [Seg_cons] at hs
    obtain ⟨hp, n, hn, hr⟩ := hs
    simp [walk, hp, hn, walk_spec fuel h n.next as hr (by simpa using hf)]

theorem values_sorted (h : Heap) (as : List Nat) (hs : as.Sorted (AddrLe (valueAt h))) :
    (values h as).Sorted TextLe := by
  unfold values List.Sorted
  rw [List.pairwise_map]
  exact hs

/-- C1: from a well-formed queue, `q_sort` with enough fuel returns a well-formed queue
whose head-to-tail values are in ascending `strcmp` order and whose elements are a
permutation of the elements before the call, each with its value unchanged. -/
theorem q_sort_sorted_perm (fuel : Nat) (m : Mem) (as : List Nat) (hwf : Wf m as)
    (hf : as.length < fuel) :
    ∃ m1 out, q_sort fuel m = .ok m1 ∧ Wf m1 out ∧ contents fuel m1 = values m1.heap out ∧
      (values m1.heap out).Sorted TextLe ∧ out.Perm as ∧
      (values m1.heap out).Perm (values m.heap as) ∧
      (∀ x, valueAt m1.heap x = valueAt m.heap x) := by
  obtain ⟨m1, out, hrun, hwf1, hperm, hsort, hsv, _, _⟩ := q_sort_spec fuel m as hwf hf
  refine ⟨m1, out, hrun, hwf1, ?_, ?_, hperm, ?_, fun x => congrFun hsv.valueAt x⟩
  · have hw := hwf1
    rw [Wf_iff] at hw
    obtain ⟨q1, hq1, hseg1, _, _⟩ := hw
    simp [contents, hq1, walk_spec fuel m1.heap q1.head out hseg1
      (by rw [hperm.length_eq]; omega)]
  · rw [hsv.values]
    exact values_sorted _ _ hsort
  · rw [hsv.values]
    exact hperm.map _

theorem q_sort_sorted_perm_witness :
    Wf exampleCAB [1, 2, 3] ∧
    (∃ m1 out, q_sort 4 exampleCAB = .ok m1 ∧ Wf m1 out ∧
      contents 4 m1 = values m1.heap out ∧
      (values m1.heap out).Sorted TextLe ∧ out.Perm [1, 2, 3] ∧
      (values m1.heap out).Perm (values exampleCAB.heap [1, 2, 3]) ∧
      (∀ x, valueAt m1.heap x = valueAt exampleCAB.heap x)) ∧
    contents 3 exampleCAB = [[99], [97], [98]] ∧
    (q_sort 4 exampleCAB).toOption.map (contents 3) = some [[97], [98], [99]] :=
  ⟨by decide, q_sort_sorted_perm 4 exampleCAB [1, 2, 3] (by decide) (by decide),
    by decide, by decide⟩

/-- C2: on a well-formed present queue with elements `as`, `q_insert_head` with successful
allocations (the element address being fresh) returns true; the queue is then well formed
with elements `a :: as` and values `s :: L`, the new head holds `s` and links to the old
head, `size` grew by one, and `tail` is the new element if the queue was empty and is
unchanged otherwise. -/
theorem q_insert_head_success (m : Mem) (q : Queue) (as : List Nat) (s : Text) (a : Nat)
    (hq : m.q = some q) (hwf : Wf m as) (hfresh : m.heap a = none) :
    ∃ m1 q1, q_insert_head m s (some a) true = .ok (true, m1) ∧ m1.q = some q1 ∧
      Wf m1 (a :: as) ∧ values m1.heap (a :: as) = s :: values m.heap as ∧
      q1.head = some a ∧ m1.heap a = some ⟨s, q.head⟩ ∧ q1.size = q.size + 1 ∧
      (as = [] → q1.tail = some a) ∧ (as ≠ [] → q1.tail = q.tail) := by
  obtain ⟨m1, q1, h1, h2, h3, h4, h5, h6, h7, h8, h9, _⟩ :=
    q_insert_head_spec m q as s a hq hwf hfresh
  exact ⟨m1, q1, h1, h2, h3, h4, h5, h6, h7, h8, h9⟩

theorem q_insert_head_success_witness :
    exampleX.q = some ⟨some 1, some 1, 1⟩ ∧ Wf exampleX [1] ∧ exampleX.heap 2 = none ∧
    (∃ m1 q1, q_insert_head exampleX [121] (some 2) true = .ok (true, m1) ∧ m1.q = some q1 ∧
      Wf m1 [2, 1] ∧ values m1.heap [2, 1] = [121] :: values exampleX.heap [1] ∧
      q1.head = some 2 ∧ m1.heap 2 = some ⟨[121], some 1⟩ ∧ q1.size = 1 + 1 ∧
      (([1] : List Nat) = [] → q1.tail = some 2) ∧ (([1] : List Nat) ≠ [] → q1.tail = some 1)) ∧
    contents 2 exampleYX = [[121], [120]] :=
  ⟨by decide, by decide, by decide,
    q_insert_head_success exampleX ⟨some 1, some 1, 1⟩ [1] [121] 2 (by decide) (by decide)
      (by decide),
    by decide⟩

/-- C3: on a well-formed present queue with elements `as`, `q_insert_tail` with successful
allocations (the element address being fresh) returns true; the queue is then well formed
with elements `as ++ [a]` and values `L ++ [s]`, `tail` is the new element, which holds `s`
and has no successor, `size` grew by one, `head` is the new element if the queue was empty,
and otherwise `head` is unchanged and the old tail links to the new element. -/
theorem q_insert_tail_success (m : Mem) (q : Queue) (as : List Nat) (s : Text) (a : Nat)
    (hq : m.q = some q) (hwf : Wf m as) (hfresh : m.heap a = none) :
    ∃ m1 q1, q_insert_tail m s (some a) true = .ok (true, m1) ∧ m1.q = some q1 ∧
      Wf m1 (as ++ [a]) ∧ values m1.heap (as ++ [a]) = values m.heap as ++ [s] ∧
      q1.tail = some a ∧ m1.heap a = some ⟨s, none⟩ ∧ q1.size = q.size + 1 ∧
      (as = [] → q1.head = some a) ∧
      (as ≠ [] → q1.head = q.head ∧
        ∃ t tn, q.tail = some t ∧ m.heap t = some tn ∧
          m1.heap t = some { tn with next := some a }) :=
  q_insert_tail_spec m q as s a hq hwf hfresh

theorem q_insert_tail_success_witness :
    exampleX.q = some ⟨some 1, some 1, 1⟩ ∧ Wf exampleX [1] ∧ exampleX.heap 2 = none ∧
    (∃ m1 q1, q_insert_tail exampleX [122] (some 2) true = .ok (true, m1) ∧ m1.q = some q1 ∧
      Wf m1 ([1] ++ [2]) ∧ values m1.heap ([1] ++ [2]) = values exampleX.heap [1] ++ [[122]] ∧
      q1.tail = some 2 ∧ m1.heap 2 = some ⟨[122], none⟩ ∧ q1.size = 1 + 1 ∧
      (([1] : List Nat) = [] → q1.head = some 2) ∧
      (([1] : List Nat) ≠ [] → q1.head = some 1 ∧
        ∃ t tn, (some 1 : Ptr) = some t ∧ exampleX.heap t = some tn ∧
          m1.heap t = some { tn with next := some 2 })) ∧
    contents 2 (afterOps [.insert_tail [120] (some 1) true, .insert_tail [122] (some 2) true])
      = [[120], [122]] :=
  ⟨by decide, by decide, by decide,
    q_insert_tail_success exampleX ⟨some 1, some 1, 1⟩ [1] [122] 2 (by decide) (by decide)
      (by decide),
    by decide⟩

/-- C4 (the code departs from the claim): removing the only element of a one-element queue
returns true, sets `head` to `NULL` and `size` to 0, but leaves `tail` pointing at the
element that was just freed instead of setting it to `NULL`. -/
theorem q_remove_head_keeps_stale_tail :
    ∃ r q1, q_remove_head exampleA none 0 = .ok r ∧ r.ret = true ∧ r.mem.q = some q1 ∧
      q1.head = none ∧ q1.size = 0 ∧ q1.tail = some 1 ∧ r.mem.heap 1 = none ∧
      contents 1 r.mem = [] :=
  ⟨_, _, rfl, rfl, rfl, rfl, rfl, rfl, rfl, rfl⟩

/-- C5: on an absent queue or a well-formed present one, `q_remove_head` returns, and it
returns false exactly when the queue is absent or empty; in that case the memory (head,
tail, size and elements) and the caller buffer are unchanged. -/
theorem q_remove_head_false_iff (m : Mem) (sp : Option Buf) (bufsize : Nat)
    (hm : m.q = none ∨ ∃ as, Wf m as) :
    ∃ r, q_remove_head m sp bufsize = .ok r ∧
      (r.ret = false ↔ (m.q = none ∨ Wf m [])) ∧
      (r.ret = false → r.mem = m ∧ r.buf = sp) := by
  rcases hm with hq | ⟨as, hwf⟩
  · exact ⟨_, q_remove_head_empty m sp bufsize (Or.inl hq), by simp [hq], fun _ => ⟨rfl, rfl⟩⟩
  · cases as with
    | nil =>
      exact ⟨_, q_remove_head_empty m sp bufsize (Or.inr hwf), by simp [hwf],
        fun _ => ⟨rfl, rfl⟩⟩
    | cons a as =>
      obtain ⟨q, hq, hseg, _, _⟩ := (Wf_iff m _).1 hwf
      obtain ⟨an, _, _, hrun, _, _⟩ := q_remove_head_spec m q a as sp bufsize hq hwf
      refine ⟨_, hrun, ?_, ?_⟩
      · simp only [Bool.true_eq_false, false_iff, hq, not_or]
        refine ⟨by simp, fun hw => ?_⟩
        obtain ⟨q0, hq0, hseg0, _, _⟩ := (Wf_iff m _).1 hw
        rw [hq] at hq0
        have : q0 = q := by simpa using hq0.symm
        subst this
        have := Seg_functional _ _ _ _ hseg hseg0
        simp at this
      · intro hc; simp at hc

theorem q_remove_head_false_iff_witness :
    (exampleARemoved.q = none ∨ ∃ as, Wf exampleARemoved as) ∧
    (∃ r, q_remove_head exampleARemoved none 0 = .ok r ∧
      (r.ret = false ↔ (exampleARemoved.q = none ∨ Wf exampleARemoved [])) ∧
      (r.ret = false → r.mem = exampleARemoved ∧ r.buf = none)) ∧
    (∃ r1 b r2, q_remove_head exampleA (some filledBuf) 10 = .ok r1 ∧ r1.ret = true ∧
      r1.buf = some b ∧ readText b 10 0 = [97] ∧
      q_remove_head r1.mem none 0 = .ok r2 ∧ r2.ret = false ∧ (q_size r2.mem).1 = 0) :=
  ⟨Or.inr ⟨[], by decide⟩,
    q_remove_head_false_iff exampleARemoved none 0 (Or.inr ⟨[], by decide⟩),
    ⟨_, _, _, rfl, rfl, rfl, by decide, rfl, rfl, rfl⟩⟩

theorem size_sub_one (N : Nat) (h1 : 1 ≤ N) (h2 : N < SIZE_MOD) : size_sub N 1 = N - 1 := by
  unfold size_sub SIZE_MOD at *
  omega

/-- C6: when the head element holds a value of length `L` and a buffer of capacity `N`
with `1 ≤ N` is supplied, `q_remove_head` returns true and the buffer afterwards holds the
first `min L (N - 1)` bytes of the value at offsets below `min L (N - 1)`, a terminator at
offset `min L (N - 1)`, and its old bytes at every later offset; read as a C string it is
the value truncated to `N - 1` bytes. -/
theorem q_remove_head_buffer (m : Mem) (q : Queue) (a : Nat) (nd : Node) (b : Buf) (N : Nat)
    (hq : m.q = some q) (hhead : q.head = some a) (hnd : m.heap a = some nd)
    (hN1 : 1 ≤ N) (hN2 : N < SIZE_MOD) :
    ∃ r b1, q_remove_head m (some b) N = .ok r ∧ r.ret = true ∧ r.buf = some b1 ∧
      (∀ i, i < min (strlen nd.value) (N - 1) → b1 i = byteAt nd.value i) ∧
      b1 (min (strlen nd.value) (N - 1)) = 0 ∧
      (∀ i, min (strlen nd.value) (N - 1) < i → b1 i = b i) ∧
      readText b1 N 0 = nd.value.take (N - 1) := by
  have hsub := size_sub_one N hN1 hN2
  have hcpy : (if strlen nd.value < size_sub N 1 then strlen nd.value else size_sub N 1)
      = min (strlen nd.value) (N - 1) := by
    rw [hsub]
    by_cases hlt : strlen nd.value < N - 1
    · rw [if_pos hlt, Nat.min_eq_left (Nat.le_of_lt hlt)]
    · rw [if_neg hlt, Nat.min_eq_right (Nat.le_of_not_lt hlt)]
  generalize hk : min (strlen nd.value) (N - 1) = k at hcpy
  have hkL : k ≤ nd.value.length := by rw [← hk]; exact Nat.min_le_left _ _
  have hkN : k ≤ N - 1 := by rw [← hk]; exact Nat.min_le_right _ _
  refine ⟨⟨true, { heap := free m.heap a,
                   q := some { head := nd.next, tail := q.tail, size := q.size - 1 } },
            some (poke (strncpy b nd.value k) k 0)⟩,
    poke (strncpy b nd.value k) k 0, ?_, rfl, rfl, ?_, ?_, ?_, ?_⟩
  · simp [q_remove_head, hq, hhead, hnd, hcpy]
  · intro i hi
    have : i ≠ k := by omega
    simp [poke, strncpy, this, hi]
  · simp [poke]
  · intro i hi
    have h1 : i ≠ k := by omega
    have h2 : ¬ i < k := by omega
    simp [poke, strncpy, h1, h2]
  · have htake : nd.value.take (N - 1) = nd.value.take k := by
      rw [← hk]
      unfold strlen
      rcases Nat.le_total nd.value.length (N - 1) with hle | hle
      · rw [Nat.min_eq_left hle, List.take_of_length_le hle, List.take_of_length_le (le_refl _)]
      · rw [Nat.min_eq_right hle]
    rw [htake]
    have hlen : (nd.value.take k).length = k := by
      rw [List.length_take]; exact Nat.min_eq_left hkL
    apply readText_spec
    · intro j hj
      rw [hlen] at hj
      have h1 : j ≠ k := by omega
      have hjL : j < nd.value.length := by omega
      simp [poke, strncpy, h1, hj, byteAt_lt nd.value j hjL]
    · rw [hlen]; simp [poke]
    · rw [hlen]; omega

theorem q_remove_head_buffer_witness :
    exampleHello.q = some ⟨some 1, some 1, 1⟩ ∧ (some 1 : Ptr) = some 1 ∧
    exampleHello.heap 1 = some ⟨[104, 101, 108, 108, 111], none⟩ ∧ 1 ≤ 3 ∧ 3 < SIZE_MOD ∧
    (∃ r b1, q_remove_head exampleHello (some filledBuf) 3 = .ok r ∧ r.ret = true ∧
      r.buf = some b1 ∧
      (∀ i, i < min (strlen [104, 101, 108, 108, 111]) (3 - 1) →
        b1 i = byteAt [104, 101, 108, 108, 111] i) ∧
      b1 (min (strlen [104, 101, 108, 108, 111]) (3 - 1)) = 0 ∧
      (∀ i, min (strlen [104, 101, 108, 108, 111]) (3 - 1) < i → b1 i = filledBuf i) ∧
      readText b1 3 0 = List.take (3 - 1) [104, 101, 108, 108, 111]) ∧
    (∃ r b1, q_remove_head exampleHello (some filledBuf) 3 = .ok r ∧ r.buf = some b1 ∧
      [b1 0, b1 1, b1 2, b1 3] = [104, 101, 0, 255]) :=
  ⟨by decide, rfl, by decide, by decide, by decide,
    q_remove_head_buffer exampleHello ⟨some 1, some 1, 1⟩ 1 ⟨[104, 101, 108, 108, 111], none⟩
      filledBuf 3 (by decide) rfl (by decide) (by decide) (by decide),
    ⟨_, _, rfl, rfl, by decide⟩⟩

/-- C7 (the code departs from the claim): with capacity 0 the `size_t` expression
`bufsize - 1` wraps to `2 ^ 64 - 1`, so `q_remove_head` copies the whole value "hello" and
a terminator into the zero-capacity buffer. -/
theorem q_remove_head_zero_capacity_writes :
    size_sub 0 1 = 2 ^ 64 - 1 ∧
    ∃ r b1, q_remove_head exampleHello (some filledBuf) 0 = .ok r ∧ r.ret = true ∧
      r.buf = some b1 ∧
      [b1 0, b1 1, b1 2, b1 3, b1 4, b1 5, b1 6] = [104, 101, 108, 108, 111, 0, 255] :=
  ⟨by decide, _, _, rfl, rfl, rfl, by decide⟩

/-! ## Sequences of calls -/

theorem sizeField_present (m : Mem) (q : Queue) (hq : m.q = some q) :
    sizeField m = q.size := by
  simp [sizeField, hq]

theorem q_size_eq (m : Mem) : (q_size m).1 = to_int (sizeField m) := by
  cases hq : m.q <;> simp [q_size, sizeField, hq, to_int]

theorem to_int_small (x : Int) (h0 : 0 ≤ x) (h1 : x < 2 ^ 31) : to_int x = x := by
  unfold to_int
  norm_num at h1 ⊢
  omega

theorem sizeField_nonneg (m : Mem) (hwf : m.q = none ∨ ∃ as, Wf m as) : 0 ≤ sizeField m := by
  rcases hwf with hq | ⟨as, hw⟩
  · simp [sizeField, hq]
  · obtain ⟨q, hq, _, hsize, _⟩ := (Wf_iff m as).1 hw
    rw [sizeField_present m q hq, hsize]
    exact Int.natCast_nonneg _

theorem stepOp_spec (t : Tally) (op : Op)
    (hwf : t.mem.q = none ∨ ∃ as, Wf t.mem as)
    (hsz : sizeField t.mem = (t.inserted : Int) - (t.removed : Int))
    (hfr : freshAt t.mem (allocated op)) :
    ∃ t1, stepOp t op = .ok t1 ∧ (t1.mem.q = none ∨ ∃ as, Wf t1.mem as) ∧
      sizeField t1.mem = (t1.inserted : Int) - (t1.removed : Int) := by
  cases op with
  | insert_head s na vo =>
    have hfresh : ∀ a, na = some a → t.mem.heap a = none := by
      intro a ha; subst ha; exact hfr
    by_cases hfail : t.mem.q = none ∨ na = none ∨ vo = false
    · refine ⟨⟨t.mem, t.inserted, t.removed⟩, ?_, hwf, hsz⟩
      simp [stepOp, q_insert_head_fail t.mem s na vo hfail hfresh]
    · simp only [not_or] at hfail
      obtain ⟨hq, hna, hvo⟩ := hfail
      obtain ⟨q, hq⟩ := Option.ne_none_iff_exists.1 hq
      replace hq := hq.symm
      obtain ⟨a, ha⟩ := Option.ne_none_iff_exists.1 hna
      have hvo : vo = true := by simpa using hvo
      subst ha hvo
      obtain ⟨as, hw⟩ := hwf.resolve_left (by simp [hq])
      obtain ⟨m1, q1, hrun, hq1, hw1, _, _, _, hs1, _⟩ :=
        q_insert_head_spec t.mem q as s a hq hw (hfresh a rfl)
      refine ⟨⟨m1, t.inserted + 1, t.removed⟩, by simp [stepOp, hrun], Or.inr ⟨_, hw1⟩, ?_⟩
      rw [sizeField_present t.mem q hq] at hsz
      rw [sizeField_present m1 q1 hq1, hs1, hsz]
      push_cast; ring
  | insert_tail s na vo =>
    have hfresh : ∀ a, na = some a → t.mem.heap a = none := by
      intro a ha; subst ha; exact hfr
    by_cases hfail : t.mem.q = none ∨ na = none ∨ vo = false
    · refine ⟨⟨t.mem, t.inserted, t.removed⟩, ?_, hwf, hsz⟩
      simp [stepOp, q_insert_tail_fail t.mem s na vo hfail hfresh]
    · simp only [not_or] at hfail
      obtain ⟨hq, hna, hvo⟩ := hfail
      obtain ⟨q, hq⟩ := Option.ne_none_iff_exists.1 hq
      replace hq := hq.symm
      obtain ⟨a, ha⟩ := Option.ne_none_iff_exists.1 hna
      have hvo : vo = true := by simpa using hvo
      subst ha hvo
      obtain ⟨as, hw⟩ := hwf.resolve_left (by simp [hq])
      obtain ⟨m1, q1, hrun, hq1, hw1, _, _, _, hs1, _⟩ :=
        q_insert_tail_spec t.mem q as s a hq hw (hfresh a rfl)
      refine ⟨⟨m1, t.inserted + 1, t.removed⟩, by simp [stepOp, hrun], Or.inr ⟨_, hw1⟩, ?_⟩
      rw [sizeField_present t.mem q hq] at hsz
      rw [sizeField_present m1 q1 hq1, hs1, hsz]
      push_cast; ring
  | remove_head sp n =>
    have hempty : ∀ (he : t.mem.q = none ∨ Wf t.mem []), ∃ t1, stepOp t (.remove_head sp n) = .ok t1 ∧
        (t1.mem.q = none ∨ ∃ as, Wf t1.mem as) ∧
        sizeField t1.mem = (t1.inserted : Int) - (t1.removed : Int) := by
      intro he
      refine ⟨⟨t.mem, t.inserted, t.removed⟩, ?_, hwf, hsz⟩
      simp [stepOp, q_remove_head_empty t.mem sp n he]
    rcases hwf with hq | ⟨as, hw⟩
    · exact hempty (Or.inl hq)
    · cases as with
      | nil => exact hempty (Or.inr hw)
      | cons a as =>
        obtain ⟨q, hq, _⟩ := (Wf_iff _ _).1 hw
        obtain ⟨an, _, _, hrun, hw1, _⟩ := q_remove_head_spec t.mem q a as sp n hq hw
        refine ⟨⟨_, t.inserted, t.removed + 1⟩, by simp [stepOp, hrun], Or.inr ⟨_, hw1⟩, ?_⟩
        rw [sizeField_present t.mem q hq] at hsz
        simp only [sizeField, hsz]
        push_cast; ring

theorem runOps_spec : ∀ (ops : List Op) (t : Tally),
    (t.mem.q = none ∨ ∃ as, Wf t.mem as) →
    sizeField t.mem = (t.inserted : Int) - (t.removed : Int) →
    FreshAllocs t ops →
    ∃ t1, runOps t ops = .ok t1 ∧ (t1.mem.q = none ∨ ∃ as, Wf t1.mem as) ∧
      sizeField t1.mem = (t1.inserted : Int) - (t1.removed : Int)
  | [], t, hwf, hsz, _ => ⟨t, rfl, hwf, hsz⟩
  | op :: ops, t, hwf, hsz, hfr => by
    obtain ⟨hf1, hf2⟩ := hfr
    obtain ⟨t1, hstep, hwf1, hsz1⟩ := stepOp_spec t op hwf hsz hf1
    rw [hstep] at hf2
    obtain ⟨t2, hrun, hwf2, hsz2⟩ := runOps_spec ops t1 hwf1 hsz1 hf2
    exact ⟨t2, by simp [runOps, hstep, hrun], hwf2, hsz2⟩

theorem q_new_wf (heap : Heap) (ok : Bool) :
    (q_new heap ok).q = none ∨ ∃ as, Wf (q_new heap ok) as := by
  cases ok
  · left; rfl
  · right; exact ⟨[], by simp [Wf, q_new, Seg]⟩

theorem insertsFrom_run : ∀ (n base : Nat) (t : Tally),
    (∃ as, Wf t.mem as) → (∀ a, base ≤ a → t.mem.heap a = none) →
    FreshAllocs t (insertsFrom base n) ∧
      ∃ t1, runOps t (insertsFrom base n) = .ok t1 ∧ t1.inserted = t.inserted + n ∧
        t1.removed = t.removed ∧ sizeField t1.mem = sizeField t.mem + (n : Int)
  | 0, _, t, _, _ => ⟨trivial, t, rfl, rfl, rfl, by simp⟩
  | n + 1, base, t, hwf, hfree => by
    obtain ⟨as, hw⟩ := hwf
    obtain ⟨q, hq, _⟩ := (Wf_iff t.mem as).1 hw
    obtain ⟨m1, q1, hrun, hq1, hw1, _, _, _, hs1, _, _, hfr⟩ :=
      q_insert_head_spec t.mem q as [97] base hq hw (hfree base (le_refl _))
    have hstep : stepOp t (.insert_head [97] (some base) true)
        = .ok ⟨m1, t.inserted + 1, t.removed⟩ := by
      simp [stepOp, hrun]
    obtain ⟨hfa, t2, hrun2, hi2, hr2, hs2⟩ :=
      insertsFrom_run n (base + 1) ⟨m1, t.inserted + 1, t.removed⟩ ⟨_, hw1⟩
        (fun a ha => by
          show m1.heap a = none
          rw [hfr a (by omega)]
          exact hfree a (by omega))
    refine ⟨?_, t2, ?_, ?_, hr2, ?_⟩
    · show freshAt t.mem (some base) ∧ _
      refine ⟨hfree base (le_refl _), ?_⟩
      rw [hstep]
      exact hfa
    · have hcons : runOps t (insertsFrom base (n + 1)) =
          (match stepOp t (Op.insert_head [97] (some base) true) with
            | Except.error e => Except.error e
            | Except.ok t1 => runOps t1 (insertsFrom (base + 1) n)) := rfl
      rw [hcons, hstep]
      exact hrun2
    · rw [hi2]; show t.inserted + 1 + n = t.inserted + (n + 1); omega
    · rw [hs2]
      show sizeField m1 + (n : Int) = sizeField t.mem + ((n + 1 : Nat) : Int)
      rw [sizeField_present m1 q1 hq1, sizeField_present t.mem q hq, hs1]
      push_cast; ring

/-- C8 as stated fails: after `2 ^ 31` successful calls of `insert_head` on a fresh queue
the number of successful insertions minus successful removals is `2 ^ 31`, which is not a
C `int`; `q_size` returns `- 2 ^ 31`. -/
theorem q_size_wraps_past_int_max :
    FreshAllocs ⟨q_new emptyHeap true, 0, 0⟩ (insertsFrom 0 (2 ^ 31)) ∧
    ∃ t, runOps ⟨q_new emptyHeap true, 0, 0⟩ (insertsFrom 0 (2 ^ 31)) = .ok t ∧
      t.inserted = 2 ^ 31 ∧ t.removed = 0 ∧ (q_size t.mem).1 = - 2 ^ 31 ∧
      (q_size t.mem).1 ≠ (t.inserted : Int) - (t.removed : Int) := by
  obtain ⟨hfa, t, hrun, hi, hr, hs⟩ :=
    insertsFrom_run (2 ^ 31) 0 ⟨q_new emptyHeap true, 0, 0⟩ ⟨[], by decide⟩ (fun _ _ => rfl)
  have hs0 : sizeField (q_new emptyHeap true) = 0 := rfl
  have hi1 : t.inserted = 2 ^ 31 := by rw [hi]; show 0 + 2 ^ 31 = 2 ^ 31; omega
  have hr1 : t.removed = 0 := hr
  have hsz : (q_size t.mem).1 = - 2 ^ 31 := by
    rw [q_size_eq, hs]
    show to_int (sizeField (q_new emptyHeap true) + ((2 ^ 31 : Nat) : Int)) = - 2 ^ 31
    rw [hs0]
    unfold to_int
    norm_num
  refine ⟨hfa, t, hrun, hi1, hr1, hsz, ?_⟩
  rw [hsz, hi1, hr1]
  norm_num

/-- C8 amended: after any sequence of `insert_head`, `insert_tail` and `remove_head` calls
on the result of `q_new`, with an allocator that hands out only fresh elements, `q_size`
returns, as a C `int`, the number of insertion calls that returned true minus the number
of removal calls that returned true, and hence exactly that number whenever it is below
`2 ^ 31`; `q_size` of an absent queue is 0, and `q_size` leaves the memory as it is. -/
theorem q_size_counts (heap : Heap) (ok : Bool) (ops : List Op)
    (hfresh : FreshAllocs ⟨q_new heap ok, 0, 0⟩ ops) :
    (∃ t, runOps ⟨q_new heap ok, 0, 0⟩ ops = .ok t ∧
      (q_size t.mem).1 = to_int ((t.inserted : Int) - (t.removed : Int)) ∧
      ((t.inserted : Int) - (t.removed : Int) < 2 ^ 31 →
        (q_size t.mem).1 = (t.inserted : Int) - (t.removed : Int))) ∧
    (∀ m : Mem, m.q = none → (q_size m).1 = 0) ∧
    (∀ m : Mem, (q_size m).2 = m) := by
  refine ⟨?_, ?_, ?_⟩
  · obtain ⟨t, hrun, hwf, hsz⟩ := runOps_spec ops ⟨q_new heap ok, 0, 0⟩ (q_new_wf heap ok)
      (by cases ok <;> simp [sizeField, q_new]) hfresh
    have h0 := sizeField_nonneg t.mem hwf
    refine ⟨t, hrun, by rw [q_size_eq, hsz], fun hlt => ?_⟩
    rw [q_size_eq, hsz]
    exact to_int_small _ (by rw [← hsz]; exact h0) hlt
  · intro m hq; simp [q_size, hq]
  · intro m; cases hq : m.q <;> simp [q_size, hq]

theorem q_size_counts_witness :
    FreshAllocs ⟨q_new emptyHeap true, 0, 0⟩ exampleOps ∧
    ((∃ t, runOps ⟨q_new emptyHeap true, 0, 0⟩ exampleOps = .ok t ∧
      (q_size t.mem).1 = to_int ((t.inserted : Int) - (t.removed : Int)) ∧
      ((t.inserted : Int) - (t.removed : Int) < 2 ^ 31 →
        (q_size t.mem).1 = (t.inserted : Int) - (t.removed : Int))) ∧
    (∀ m : Mem, m.q = none → (q_size m).1 = 0) ∧
    (∀ m : Mem, (q_size m).2 = m)) ∧
    (∃ t, runOps ⟨q_new emptyHeap true, 0, 0⟩ exampleOps = .ok t ∧
      t.inserted = 2 ∧ t.removed = 2 ∧ (q_size t.mem).1 = 0) :=
  ⟨by decide, q_size_counts emptyHeap true exampleOps (by decide),
    ⟨_, rfl, rfl, rfl, by decide⟩⟩

/-! ## Reversal -/

theorem Seg_next_agree (h h1 : Heap) : ∀ (as : List Nat) (p : Ptr),
    Seg h p as none → Seg h1 p as none →
    ∀ x, x ∈ as → (h1 x).map Node.next = (h x).map Node.next
  | [], _, _, _, x, hx => by simp at hx
  | a :: as, p, hs, hs1, x, hx => by
    rw [Seg_cons] at hs hs1
    obtain ⟨_, n, hn, hr⟩ := hs
    obtain ⟨_, n1, hn1, hr1⟩ := hs1
    have hnext : n1.next = n.next := by
      rw [Seg_head h as _ hr, Seg_head h1 as _ hr1]
    rcases List.mem_cons.1 hx with e | e
    · subst e; simp [hn, hn1, hnext]
    · rw [hnext] at hr1
      exact Seg_next_agree h h1 as _ hr hr1 x e

theorem heap_eq_of_chain (h h1 : Heap) (as : List Nat) (p : Ptr)
    (hs : Seg h p as none) (hs1 : Seg h1 p as none) (hsv : SameValues h h1)
    (hfr : ∀ x, x ∉ as → h1 x = h x) : h1 = h := by
  funext x
  by_cases hx : x ∈ as
  · have hn := Seg_next_agree h h1 as p hs hs1 x hx
    have hv := hsv x
    cases hx0 : h x with
    | none => simp [hx0] at hv; rw [hv]
    | some n =>
      cases hx1 : h1 x with
      | none => simp [hx0, hx1] at hv
      | some n1 =>
        simp [hx0, hx1] at hv hn
        cases n; cases n1; simp_all
  · exact hfr x hx

theorem Wf_of_q (m : Mem) (q : Queue) (as : List Nat) (hq : m.q = some q) (hwf : Wf m as) :
    Seg m.heap q.head as none ∧ q.size = (as.length : Int) ∧
      (as ≠ [] → q.tail = as.getLast?) := by
  simpa [Wf, hq] using hwf

theorem Queue_ext (q q1 : Queue) (h1 : q.head = q1.head) (h2 : q.tail = q1.tail)
    (h3 : q.size = q1.size) : q = q1 := by
  cases q; cases q1; simp_all

theorem Mem_ext (m m1 : Mem) (h1 : m.heap = m1.heap) (h2 : m.q = m1.q) : m = m1 := by
  cases m; cases m1; simp_all

theorem q_reverse_twice_spec (fuel : Nat) (m : Mem) (as : List Nat) (hwf : Wf m as)
    (hf : as.length ≤ fuel) :
    ∃ m1, q_reverse fuel m = .ok m1 ∧ q_reverse fuel m1 = .ok m := by
  obtain ⟨m1, hrun1, hwf1, hsv1, hfr1, q, q1, hq, hq1, hsz1, hht1⟩ :=
    q_reverse_spec fuel m as hwf hf
  obtain ⟨m2, hrun2, hwf2, hsv2, hfr2, q1b, q2, hq1b, hq2, hsz2, hht2⟩ :=
    q_reverse_spec fuel m1 as.reverse hwf1 (by simpa using hf)
  refine ⟨m1, hrun1, ?_⟩
  rw [hrun2]
  have e1 : q1b = q1 := Option.some.inj (hq1b.symm.trans hq1)
  rw [e1] at hsz2 hht2
  rw [List.reverse_reverse] at hwf2
  obtain ⟨hseg0, hsize0, htail0⟩ := Wf_of_q m q as hq hwf
  obtain ⟨hseg2, hsize2, htail2⟩ := Wf_of_q m2 q2 as hq2 hwf2
  have hhead : q2.head = q.head := by
    rw [Seg_head _ _ _ hseg0, Seg_head _ _ _ hseg2]
  have hheap : m2.heap = m.heap := by
    rw [hhead] at hseg2
    refine heap_eq_of_chain m.heap m2.heap as q.head hseg0 hseg2 (hsv1.trans hsv2) ?_
    intro x hx
    rw [hfr2 x (by simpa using hx), hfr1 x hx]
  have htl : q2.tail = q.tail := by
    by_cases he : as = []
    · subst he
      have h1 : q.head = none := by simpa [Seg] using hseg0
      have r1 : q_reverse fuel m = .ok m := by simp [q_reverse, hq, h1]
      have e2 : m1 = m := by
        rw [r1] at hrun1; exact (Except.ok.inj hrun1).symm
      rw [e2, r1] at hrun2
      have e3 : m2 = m := (Except.ok.inj hrun2).symm
      rw [e3, hq] at hq2
      rw [Option.some.inj hq2]
    · rw [(hht2 (by simpa using he)).1, (hht1 he).2]
  have hqq : q2 = q := Queue_ext q2 q hhead htl (by rw [hsize2, hsize0])
  rw [Mem_ext m2 m hheap (by rw [hq2, hq, hqq])]

/-- C9: on a well-formed present queue with elements `as`, `q_reverse` with enough fuel
returns a well-formed queue whose elements are `as` reversed, each with its value, so the
head-to-tail values are reversed; `size` is unchanged, and for a non-empty queue the old
head element is the new tail and has no successor, and the old tail element is the new
head. -/
theorem q_reverse_reverses (fuel : Nat) (m : Mem) (q : Queue) (as : List Nat)
    (hq : m.q = some q) (hwf : Wf m as) (hf : as.length ≤ fuel) :
    ∃ m1 q1, q_reverse fuel m = .ok m1 ∧ m1.q = some q1 ∧ Wf m1 as.reverse ∧
      values m1.heap as.reverse = (values m.heap as).reverse ∧
      contents fuel m1 = (contents fuel m).reverse ∧
      q1.size = q.size ∧
      (as ≠ [] → q1.tail = q.head ∧ q1.head = q.tail ∧
        ∃ a n, q.head = some a ∧ m1.heap a = some n ∧ n.next = none) := by
  obtain ⟨m1, hrun, hwf1, hsv, _, q0, q1, hq0, hq1, hsz, hht⟩ := q_reverse_spec fuel m as hwf hf
  have e0 : q0 = q := Option.some.inj (hq0.symm.trans hq)
  rw [e0] at hsz hht
  have hvals : values m1.heap as.reverse = (values m.heap as).reverse := by
    rw [hsv.values]; simp [values]
  obtain ⟨hseg, _, _⟩ := Wf_of_q m q as hq hwf
  obtain ⟨hseg1, _, _⟩ := Wf_of_q m1 q1 _ hq1 hwf1
  refine ⟨m1, q1, hrun, hq1, hwf1, hvals, ?_, hsz, fun he => ?_⟩
  · simp only [contents, hq, hq1]
    rw [walk_spec fuel _ _ _ hseg hf, walk_spec fuel _ _ _ hseg1 (by simpa using hf), hvals]
  · obtain ⟨ht, hh⟩ := hht he
    refine ⟨ht, hh, ?_⟩
    obtain ⟨a, rest, har⟩ := List.exists_cons_of_ne_nil he
    subst har
    have hha : q.head = some a := ((Seg_cons _ _ _ _ _).1 hseg).1
    rw [List.reverse_cons] at hseg1
    obtain ⟨n, hn, hnn⟩ := Seg_last _ _ _ _ hseg1
    exact ⟨a, n, hha, hn, hnn⟩

theorem q_reverse_reverses_witness :
    exampleYX.q = some ⟨some 2, some 1, 2⟩ ∧ Wf exampleYX [2, 1] ∧ [2, 1].length ≤ 2 ∧
    (∃ m1 q1, q_reverse 2 exampleYX = .ok m1 ∧ m1.q = some q1 ∧ Wf m1 [2, 1].reverse ∧
      values m1.heap [2, 1].reverse = (values exampleYX.heap [2, 1]).reverse ∧
      contents 2 m1 = (contents 2 exampleYX).reverse ∧
      q1.size = 2 ∧
      (([2, 1] : List Nat) ≠ [] → q1.tail = some 2 ∧ q1.head = some 1 ∧
        ∃ a n, (some 2 : Ptr) = some a ∧ m1.heap a = some n ∧ n.next = none)) ∧
    contents 2 exampleYX = [[121], [120]] ∧
    (q_reverse 2 exampleYX).toOption.map (contents 2) = some [[120], [121]] :=
  ⟨by decide, by decide, by decide,
    q_reverse_reverses 2 exampleYX ⟨some 2, some 1, 2⟩ [2, 1] (by decide) (by decide)
      (by decide),
    by decide, by decide⟩

/-- C10: on an absent queue or a well-formed present one (empty or of any length),
`q_reverse` applied twice with enough fuel returns the original memory: the same elements
in the same order with the same links and values, and the same `head`, `tail` and `size`. -/
theorem q_reverse_involution (fuel : Nat) (m : Mem)
    (hm : m.q = none ∨ ∃ as, Wf m as ∧ as.length ≤ fuel) :
    ∃ m1, q_reverse fuel m = .ok m1 ∧ q_reverse fuel m1 = .ok m := by
  rcases hm with hq | ⟨as, hwf, hf⟩
  · exact ⟨m, by simp [q_reverse, hq], by simp [q_reverse, hq]⟩
  · exact q_reverse_twice_spec fuel m as hwf hf

theorem q_reverse_involution_witness :
    (exampleCAB.q = none ∨ ∃ as, Wf exampleCAB as ∧ as.length ≤ 3) ∧
    (∃ m1, q_reverse 3 exampleCAB = .ok m1 ∧ q_reverse 3 m1 = .ok exampleCAB) ∧
    (q_reverse 3 exampleCAB).toOption.map (contents 3) = some [[98], [97], [99]] :=
  ⟨Or.inr ⟨[1, 2, 3], by decide, by decide⟩,
    q_reverse_involution 3 exampleCAB (Or.inr ⟨[1, 2, 3], by decide, by decide⟩),
    by decide⟩

/-! ## A larger step budget does not change a result -/

theorem tail_walk_mono : ∀ (fuel fuel1 : Nat) (h : Heap) (t r : Ptr),
    tail_walk fuel h t = .ok r → fuel ≤ fuel1 → tail_walk fuel1 h t = .ok r
  | 0, _, _, _, _, hrun, _ => by simp [tail_walk] at hrun
  | fuel + 1, 0, _, _, _, _, hle => by omega
  | fuel + 1, fuel1 + 1, h, t, r, hrun, hle => by
    simp only [tail_walk] at hrun ⊢
    cases hl : load h t with
    | error e => simp [hl] at hrun
    | ok tn =>
      simp only [hl] at hrun ⊢
      cases hn : tn.next with
      | none => simpa [hn] using hrun
      | some b =>
        simp only [hn] at hrun ⊢
        rw [← hn] at hrun ⊢
        exact tail_walk_mono fuel fuel1 h _ r hrun (by omega)

theorem reverse_loop_mono : ∀ (fuel fuel1 : Nat) (h : Heap) (head pre next : Ptr)
    (r : Heap × Ptr),
    reverse_loop fuel h head pre next = .ok r → fuel ≤ fuel1 →
    reverse_loop fuel1 h head pre next = .ok r
  | 0, _, _, _, _, _, _, hrun, _ => by simp [reverse_loop] at hrun
  | fuel + 1, 0, _, _, _, _, _, _, hle => by omega
  | fuel + 1, fuel1 + 1, h, head, pre, next, r, hrun, hle => by
    simp only [reverse_loop] at hrun ⊢
    cases next with
    | none => simpa using hrun
    | some n =>
      simp only at hrun ⊢
      cases hn : h n with
      | none => simp [hn] at hrun
      | some nn =>
        simp only [hn] at hrun ⊢
        cases hs : setNext h n pre with
        | error e => simp [hs] at hrun
        | ok h1 =>
          simp only [hs] at hrun ⊢
          exact reverse_loop_mono fuel fuel1 h1 _ _ _ r hrun (by omega)

theorem split_walk_mono : ∀ (fuel fuel1 : Nat) (h : Heap) (slow fast r : Ptr),
    split_walk fuel h slow fast = .ok r → fuel ≤ fuel1 →
    split_walk fuel1 h slow fast = .ok r
  | 0, _, _, _, _, _, hrun, _ => by simp [split_walk] at hrun
  | fuel + 1, 0, _, _, _, _, _, hle => by omega
  | fuel + 1, fuel1 + 1, h, slow, fast, r, hrun, hle => by
    simp only [split_walk] at hrun ⊢
    cases fast with
    | none => simpa using hrun
    | some f =>
      simp only at hrun ⊢
      cases hf : h f with
      | none => simp [hf] at hrun
      | some fn =>
        simp only [hf] at hrun ⊢
        cases hfn : fn.next with
        | none => simpa [hfn] using hrun
        | some f2 =>
          simp only [hfn] at hrun ⊢
          cases hl : load h slow with
          | error e => simp [hl] at hrun
          | ok sn =>
            simp only [hl] at hrun ⊢
            cases hf2 : h f2 with
            | none => simp [hf2] at hrun
            | some f2n =>
              simp only [hf2] at hrun ⊢
              exact split_walk_mono fuel fuel1 h _ _ r hrun (by omega)

theorem merge_loop_mono : ∀ (fuel fuel1 : Nat) (h : Heap) (head : Ptr) (iter : Option Nat)
    (left right : Ptr) (r : Heap × Ptr),
    merge_loop fuel h head iter left right = .ok r → fuel ≤ fuel1 →
    merge_loop fuel1 h head iter left right = .ok r
  | 0, _, _, _, _, _, _, _, hrun, _ => by simp [merge_loop] at hrun
  | fuel + 1, 0, _, _, _, _, _, _, _, hle => by omega
  | fuel + 1, fuel1 + 1, h, head, iter, left, right, r, hrun, hle => by
    have ih := fun h1 head1 it l1 r1 => merge_loop_mono fuel fuel1 h1 head1 it l1 r1 r
    simp only [merge_loop] at hrun ⊢
    cases left with
    | none => simpa using hrun
    | some l =>
      cases right with
      | none => simpa using hrun
      | some rt =>
        simp only at hrun ⊢
        cases hl : h l with
        | none => simp [hl] at hrun
        | some ln =>
          cases hr : h rt with
          | none => simp [hl, hr] at hrun
          | some rn =>
            simp only [hl, hr] at hrun ⊢
            by_cases hlt : strcmp ln.value rn.value < 0
            · simp only [hlt, if_true] at hrun ⊢
              cases hs : storeIter h head iter (some l) with
              | error e => simp [hs] at hrun
              | ok p =>
                obtain ⟨h1, head1⟩ := p
                simp only [hs] at hrun ⊢
                cases hld : load h1 (some l) with
                | error e => simp [hld] at hrun
                | ok ln1 =>
                  simp only [hld] at hrun ⊢
                  cases hrd : readIter h1 head1 iter with
                  | error e => simp [hrd] at hrun
                  | ok it =>
                    cases it with
                    | none => simp [hrd] at hrun
                    | some i =>
                      simp only [hrd] at hrun ⊢
                      exact ih _ _ _ _ _ hrun (by omega)
            · simp only [hlt, if_false] at hrun ⊢
              cases hs : storeIter h head iter (some rt) with
              | error e => simp [hs] at hrun
              | ok p =>
                obtain ⟨h1, head1⟩ := p
                simp only [hs] at hrun ⊢
                cases hld : load h1 (some rt) with
                | error e => simp [hld] at hrun
                | ok rn1 =>
                  simp only [hld] at hrun ⊢
                  cases hrd : readIter h1 head1 iter with
                  | error e => simp [hrd] at hrun
                  | ok it =>
                    cases it with
                    | none => simp [hrd] at hrun
                    | some i =>
                      simp only [hrd] at hrun ⊢
                      exact ih _ _ _ _ _ hrun (by omega)

theorem mergeSort_mono : ∀ (depth depth1 fuel fuel1 : Nat) (h : Heap) (head : Ptr)
    (r : Heap × Ptr),
    mergeSort depth fuel h head = .ok r → depth ≤ depth1 → fuel ≤ fuel1 →
    mergeSort depth1 fuel1 h head = .ok r
  | 0, _, _, _, _, _, _, hrun, _, _ => by simp [mergeSort] at hrun
  | depth + 1, 0, _, _, _, _, _, _, hle, _ => by omega
  | depth + 1, depth1 + 1, fuel, fuel1, h, head, r, hrun, hd, hf => by
    simp only [mergeSort] at hrun ⊢
    cases head with
    | none => simpa using hrun
    | some a =>
      simp only at hrun ⊢
      cases ha : h a with
      | none => simp [ha] at hrun
      | some hn =>
        simp only [ha] at hrun ⊢
        cases hnn : hn.next with
        | none => simpa [hnn] using hrun
        | some b =>
          simp only [hnn] at hrun ⊢
          cases hw : split_walk fuel h (some a) (some b) with
          | error e => simp [hw] at hrun
          | ok sl =>
            rw [split_walk_mono fuel fuel1 h _ _ sl hw hf]
            cases sl with
            | none => simp [hw] at hrun
            | some s =>
              simp only [hw] at hrun ⊢
              cases hs : h s with
              | none => simp [hs] at hrun
              | some sn =>
                simp only [hs] at hrun ⊢
                cases hsn : setNext h s none with
                | error e => simp [hsn] at hrun
                | ok h1 =>
                  simp only [hsn] at hrun ⊢
                  cases hL : mergeSort depth fuel h1 (some a) with
                  | error e => simp [hL] at hrun
                  | ok p =>
                    obtain ⟨h2, l⟩ := p
                    rw [mergeSort_mono depth depth1 fuel fuel1 h1 _ _ hL (by omega) hf]
                    simp only [hL] at hrun ⊢
                    cases hR : mergeSort depth fuel h2 sn.next with
                    | error e => simp [hR] at hrun
                    | ok p2 =>
                      obtain ⟨h3, rr⟩ := p2
                      rw [mergeSort_mono depth depth1 fuel fuel1 h2 _ _ hR (by omega) hf]
                      simp only [hR] at hrun ⊢
                      exact merge_loop_mono fuel fuel1 h3 none none l rr r hrun hf

theorem q_sort_mono (fuel fuel1 : Nat) (m m1 : Mem) (hrun : q_sort fuel m = .ok m1)
    (hle : fuel ≤ fuel1) : q_sort fuel1 m = .ok m1 := by
  simp only [q_sort] at hrun ⊢
  cases hq : m.q with
  | none => simpa [hq] using hrun
  | some q =>
    simp only [hq] at hrun ⊢
    cases hh : q.head with
    | none => simpa [hh] using hrun
    | some a =>
      simp only [hh] at hrun ⊢
      cases hs : mergeSort fuel fuel m.heap (some a) with
      | error e => simp [hs] at hrun
      | ok p =>
        obtain ⟨h1, head⟩ := p
        rw [mergeSort_mono fuel fuel1 fuel fuel1 m.heap _ _ hs hle hle]
        simp only [hs] at hrun ⊢
        cases ht : tail_walk fuel h1 q.tail with
        | error e => simp [ht] at hrun
        | ok t =>
          rw [tail_walk_mono fuel fuel1 h1 _ t ht hle]
          simpa [ht] using hrun

theorem q_reverse_mono (fuel fuel1 : Nat) (m m1 : Mem) (hrun : q_reverse fuel m = .ok m1)
    (hle : fuel ≤ fuel1) : q_reverse fuel1 m = .ok m1 := by
  simp only [q_reverse] at hrun ⊢
  cases hq : m.q with
  | none => simpa [hq] using hrun
  | some q =>
    simp only [hq] at hrun ⊢
    cases hh : q.head with
    | none => simpa [hh] using hrun
    | some a =>
      simp only [hh] at hrun ⊢
      cases ha : m.heap a with
      | none => simp [ha] at hrun
      | some hn =>
        simp only [ha] at hrun ⊢
        cases hs : setNext m.heap a none with
        | error e => simp [hs] at hrun
        | ok h1 =>
          simp only [hs] at hrun ⊢
          cases hl : reverse_loop fuel h1 (some a) (some a) hn.next with
          | error e => simp [hl] at hrun
          | ok p =>
            obtain ⟨h2, head⟩ := p
            rw [reverse_loop_mono fuel fuel1 h1 _ _ _ _ hl hle]
            simpa [hl] using hrun

/-! ## The invariant of reachable memories -/

theorem insert_head_preserves (m m1 : Mem) (s : Text) (na : Ptr) (vo r : Bool)
    (hwf : m.q = none ∨ ∃ as, Wf m as) (hfr : freshAt m na)
    (hrun : q_insert_head m s na vo = .ok (r, m1)) :
    (m1.q = none ∨ ∃ as, Wf m1 as) ∧
      (r = false ↔ (m.q = none ∨ na = none ∨ vo = false)) ∧ (r = false → m1 = m) := by
  have hfresh : ∀ a, na = some a → m.heap a = none := by
    intro a ha; subst ha; exact hfr
  by_cases hfail : m.q = none ∨ na = none ∨ vo = false
  · rw [q_insert_head_fail m s na vo hfail hfresh] at hrun
    have e := Except.ok.inj hrun
    have e1 : r = false := (congrArg Prod.fst e).symm
    have e2 : m1 = m := (congrArg Prod.snd e).symm
    subst e1 e2
    exact ⟨hwf, by simp [hfail], fun _ => rfl⟩
  · have hfail0 := hfail
    simp only [not_or] at hfail
    obtain ⟨hq, hna, hvo⟩ := hfail
    obtain ⟨q, hq⟩ := Option.ne_none_iff_exists.1 hq
    replace hq := hq.symm
    obtain ⟨a, ha⟩ := Option.ne_none_iff_exists.1 hna
    have hvo : vo = true := by simpa using hvo
    subst ha hvo
    obtain ⟨as, hw⟩ := hwf.resolve_left (by simp [hq])
    obtain ⟨m2, q2, hrun2, _, hw2, _⟩ := q_insert_head_spec m q as s a hq hw (hfresh a rfl)
    rw [hrun2] at hrun
    have e := Except.ok.inj hrun
    have e1 : r = true := (congrArg Prod.fst e).symm
    have e2 : m1 = m2 := (congrArg Prod.snd e).symm
    subst e1 e2
    exact ⟨Or.inr ⟨_, hw2⟩, by simp [hq], fun hc => by simp at hc⟩

theorem insert_tail_preserves (m m1 : Mem) (s : Text) (na : Ptr) (vo r : Bool)
    (hwf : m.q = none ∨ ∃ as, Wf m as) (hfr : freshAt m na)
    (hrun : q_insert_tail m s na vo = .ok (r, m1)) :
    (m1.q = none ∨ ∃ as, Wf m1 as) ∧
      (r = false ↔ (m.q = none ∨ na = none ∨ vo = false)) ∧ (r = false → m1 = m) := by
  have hfresh : ∀ a, na = some a → m.heap a = none := by
    intro a ha; subst ha; exact hfr
  by_cases hfail : m.q = none ∨ na = none ∨ vo = false
  · rw [q_insert_tail_fail m s na vo hfail hfresh] at hrun
    have e := Except.ok.inj hrun
    have e1 : r = false := (congrArg Prod.fst e).symm
    have e2 : m1 = m := (congrArg Prod.snd e).symm
    subst e1 e2
    exact ⟨hwf, by simp [hfail], fun _ => rfl⟩
  · have hfail0 := hfail
    simp only [not_or] at hfail
    obtain ⟨hq, hna, hvo⟩ := hfail
    obtain ⟨q, hq⟩ := Option.ne_none_iff_exists.1 hq
    replace hq := hq.symm
    obtain ⟨a, ha⟩ := Option.ne_none_iff_exists.1 hna
    have hvo : vo = true := by simpa using hvo
    subst ha hvo
    obtain ⟨as, hw⟩ := hwf.resolve_left (by simp [hq])
    obtain ⟨m2, q2, hrun2, _, hw2, _⟩ := q_insert_tail_spec m q as s a hq hw (hfresh a rfl)
    rw [hrun2] at hrun
    have e := Except.ok.inj hrun
    have e1 : r = true := (congrArg Prod.fst e).symm
    have e2 : m1 = m2 := (congrArg Prod.snd e).symm
    subst e1 e2
    exact ⟨Or.inr ⟨_, hw2⟩, by simp [hq], fun hc => by simp at hc⟩

theorem remove_head_preserves (m : Mem) (sp : Option Buf) (n : Nat) (r : Removed)
    (hwf : m.q = none ∨ ∃ as, Wf m as) (hrun : q_remove_head m sp n = .ok r) :
    r.mem.q = none ∨ ∃ as, Wf r.mem as := by
  have hempty : ∀ (_ : m.q = none ∨ Wf m []), r.mem.q = none ∨ ∃ as, Wf r.mem as := by
    intro he
    rw [q_remove_head_empty m sp n he] at hrun
    rw [← Except.ok.inj hrun]
    exact hwf
  rcases hwf with hq | ⟨as, hw⟩
  · exact hempty (Or.inl hq)
  · cases as with
    | nil => exact hempty (Or.inr hw)
    | cons a as =>
      obtain ⟨q, hq, _⟩ := (Wf_iff _ _).1 hw
      obtain ⟨an, _, _, hrun2, hw1, _⟩ := q_remove_head_spec m q a as sp n hq hw
      rw [hrun2] at hrun
      rw [← Except.ok.inj hrun]
      exact Or.inr ⟨_, hw1⟩

theorem q_reverse_absent (fuel : Nat) (m : Mem) (hq : m.q = none) :
    q_reverse fuel m = .ok m := by
  simp [q_reverse, hq]

theorem q_sort_absent (fuel : Nat) (m : Mem) (hq : m.q = none) : q_sort fuel m = .ok m := by
  simp [q_sort, hq]

theorem reverse_preserves (m m1 : Mem) (fuel : Nat)
    (hwf : m.q = none ∨ ∃ as, Wf m as) (hrun : q_reverse fuel m = .ok m1) :
    m1.q = none ∨ ∃ as, Wf m1 as := by
  rcases hwf with hq | ⟨as, hw⟩
  · rw [q_reverse_absent fuel m hq] at hrun
    rw [← Except.ok.inj hrun]; exact Or.inl hq
  · obtain ⟨m2, hrun2, hw2, _⟩ := q_reverse_spec (max fuel as.length) m as hw (le_max_right _ _)
    rw [q_reverse_mono fuel _ m m1 hrun (le_max_left _ _)] at hrun2
    rw [Except.ok.inj hrun2]
    exact Or.inr ⟨_, hw2⟩

theorem sort_preserves (m m1 : Mem) (fuel : Nat)
    (hwf : m.q = none ∨ ∃ as, Wf m as) (hrun : q_sort fuel m = .ok m1) :
    m1.q = none ∨ ∃ as, Wf m1 as := by
  rcases hwf with hq | ⟨as, hw⟩
  · rw [q_sort_absent fuel m hq] at hrun
    rw [← Except.ok.inj hrun]; exact Or.inl hq
  · obtain ⟨m2, out, hrun2, hw2, _⟩ :=
      q_sort_spec (max fuel (as.length + 1)) m as hw (by
        have := le_max_right fuel (as.length + 1); omega)
    rw [q_sort_mono fuel _ m m1 hrun (le_max_left _ _)] at hrun2
    rw [Except.ok.inj hrun2]
    exact Or.inr ⟨_, hw2⟩

theorem reachable_wf (m : Mem) (hr : Reachable m) : m.q = none ∨ ∃ as, Wf m as := by
  induction hr with
  | new heap ok => exact q_new_wf heap ok
  | insert_head m m1 s na vo r _ hfr hrun ih =>
    exact (insert_head_preserves m m1 s na vo r ih hfr hrun).1
  | insert_tail m m1 s na vo r _ hfr hrun ih =>
    exact (insert_tail_preserves m m1 s na vo r ih hfr hrun).1
  | remove_head m sp n r _ hrun ih => exact remove_head_preserves m sp n r ih hrun
  | reverse m m1 fuel _ hrun ih => exact reverse_preserves m m1 fuel ih hrun
  | sort m m1 fuel _ hrun ih => exact sort_preserves m m1 fuel ih hrun

theorem reachable_present (m : Mem) (q : Queue) (hr : Reachable m) (hq : m.q = some q) :
    ∃ as, Wf m as ∧ Seg m.heap q.head as none ∧ q.size = (as.length : Int) ∧
      (as ≠ [] → q.tail = as.getLast?) := by
  obtain ⟨as, hw⟩ := (reachable_wf m hr).resolve_left (by simp [hq])
  exact ⟨as, hw, Wf_of_q m q as hq hw⟩

/-! ## Sorting twice -/

theorem strcmp_antisymm : ∀ (s t : Text), strcmp s t ≤ 0 → strcmp t s ≤ 0 → s = t
  | [], [], _, _ => rfl
  | [], b :: _, _, h2 => by simp [strcmp] at h2
  | a :: _, [], h1, _ => by simp [strcmp] at h1
  | a :: as, b :: bs, h1, h2 => by
    by_cases hab : a = b
    · subst hab
      simp only [strcmp, if_true] at h1 h2
      rw [strcmp_antisymm as bs h1 h2]
    · have hba : ¬ b = a := fun e => hab e.symm
      simp only [strcmp, hab, hba, if_false] at h1 h2
      exact absurd (PNat.eq (by omega)) hab

theorem sorted_values_unique (l1 l2 : List Text) (hp : l1.Perm l2)
    (h1 : l1.Sorted TextLe) (h2 : l2.Sorted TextLe) : l1 = l2 := by
  haveI : IsAntisymm Text TextLe := ⟨fun s t hst hts => strcmp_antisymm s t hst hts⟩
  exact List.eq_of_perm_of_sorted hp h1 h2

theorem q_sort_values (fuel : Nat) (m : Mem) (as : List Nat) (hwf : Wf m as)
    (hf : as.length < fuel) :
    ∃ m1 out, q_sort fuel m = .ok m1 ∧ Wf m1 out ∧ out.length = as.length ∧
      contents fuel m1 = values m1.heap out ∧ contents fuel m = values m.heap as ∧
      (values m1.heap out).Sorted TextLe ∧
      (values m1.heap out).Perm (values m.heap as) := by
  obtain ⟨m1, out, hrun, hwf1, hperm, hsort, hsv, _, _⟩ := q_sort_spec fuel m as hwf hf
  obtain ⟨q, hq, hseg, _, _⟩ := (Wf_iff m as).1 hwf
  obtain ⟨q1, hq1, hseg1, _, _⟩ := (Wf_iff m1 out).1 hwf1
  refine ⟨m1, out, hrun, hwf1, hperm.length_eq, ?_, ?_, ?_, ?_⟩
  · simp [contents, hq1, walk_spec fuel m1.heap q1.head out hseg1
      (by rw [hperm.length_eq]; omega)]
  · simp [contents, hq, walk_spec fuel m.heap q.head as hseg (by omega)]
  · rw [hsv.values]; exact values_sorted _ _ hsort
  · rw [hsv.values]; exact hperm.map _

/-- C11: from a well-formed queue and with enough fuel, `q_sort` applied twice leaves the
same head-to-tail sequence of values as `q_sort` applied once, and `q_sort` applied to a
queue whose values are already ascending under `strcmp` leaves that sequence unchanged. -/
theorem q_sort_idempotent (fuel : Nat) (m : Mem) (as : List Nat) (hwf : Wf m as)
    (hf : as.length < fuel) :
    ∃ m1 m2, q_sort fuel m = .ok m1 ∧ q_sort fuel m1 = .ok m2 ∧
      contents fuel m2 = contents fuel m1 ∧
      ((contents fuel m).Sorted TextLe → contents fuel m1 = contents fuel m) := by
  obtain ⟨m1, out1, hrun1, hwf1, hlen1, hc1, hc0, hs1, hp1⟩ := q_sort_values fuel m as hwf hf
  obtain ⟨m2, out2, hrun2, _, _, hc2, _, hs2, hp2⟩ :=
    q_sort_values fuel m1 out1 hwf1 (by omega)
  refine ⟨m1, m2, hrun1, hrun2, ?_, ?_⟩
  · rw [hc2, hc1]
    exact sorted_values_unique _ _ hp2 hs2 hs1
  · intro hs0
    rw [hc0] at hs0
    rw [hc1, hc0]
    exact sorted_values_unique _ _ hp1 hs1 hs0

theorem q_sort_idempotent_witness :
    Wf exampleCAB [1, 2, 3] ∧ [1, 2, 3].length < 4 ∧
    (∃ m1 m2, q_sort 4 exampleCAB = .ok m1 ∧ q_sort 4 m1 = .ok m2 ∧
      contents 4 m2 = contents 4 m1 ∧
      ((contents 4 exampleCAB).Sorted TextLe → contents 4 m1 = contents 4 exampleCAB)) ∧
    ((q_sort 4 exampleCAB).toOption.bind (fun m1 => (q_sort 4 m1).toOption)).map (contents 4)
      = some [[97], [98], [99]] :=
  ⟨by decide, by decide, q_sort_idempotent 4 exampleCAB [1, 2, 3] (by decide) (by decide),
    by decide⟩

/-! ## The tie-break of `merge` -/

theorem merge_exhausted_left (fuel : Nat) (h : Heap) (right : Ptr) :
    merge (fuel + 1) h none right = .ok (h, right) := by
  simp [merge, merge_loop, storeIter]

theorem merge_exhausted_right (fuel : Nat) (h : Heap) (l : Nat) :
    merge (fuel + 1) h (some l) none = .ok (h, some l) := by
  simp [merge, merge_loop, storeIter]

/-- C12: `merge` of two disjoint chains returns the chain given by `mergeA`; when both
chains are non-empty its first element is the left head exactly when the left head's value
is strictly less under `strcmp` than the right head's, and otherwise (equal or greater) it
is the right head, the rest being the merge of what remains; when one chain is empty the
other is returned as it is, with the heap untouched. -/
theorem merge_tie_break (fuel : Nat) (h : Heap) (left right : Ptr) (ls rs : List Nat)
    (hl : Seg h left ls none) (hr : Seg h right rs none) (hnd : (ls ++ rs).Nodup)
    (hf : ls.length + rs.length < fuel) :
    ∃ h1 head1, merge fuel h left right = .ok (h1, head1) ∧
      Seg h1 head1 (mergeA (valueAt h) ls rs) none ∧ SameValues h h1 ∧
      (ls = [] → mergeA (valueAt h) ls rs = rs ∧ h1 = h ∧ head1 = right) ∧
      (rs = [] → mergeA (valueAt h) ls rs = ls ∧ h1 = h ∧ head1 = left) ∧
      (∀ a l b r, ls = a :: l → rs = b :: r →
        (head1 = some a ↔ strcmp (valueAt h a) (valueAt h b) < 0) ∧
        (strcmp (valueAt h a) (valueAt h b) < 0 →
          mergeA (valueAt h) ls rs = a :: mergeA (valueAt h) l (b :: r)) ∧
        (¬ strcmp (valueAt h a) (valueAt h b) < 0 →
          head1 = some b ∧ mergeA (valueAt h) ls rs = b :: mergeA (valueAt h) (a :: l) r)) := by
  obtain ⟨h1, head1, out, hrun, hrd, hseg, _, _, hsv⟩ :=
    merge_loop_spec fuel h none none left right ls rs hf hl hr hnd (fun p hp => by simp at hp)
  have hout : head1 = out := by simpa [readIter] using hrd
  subst hout
  obtain ⟨f, hfuel⟩ : ∃ f, fuel = f + 1 := ⟨fuel - 1, by omega⟩
  refine ⟨h1, head1, hrun, hseg, hsv, ?_, ?_, ?_⟩
  · intro he
    subst he
    have hleft : left = none := by simpa [Seg] using hl
    subst hleft
    have e : merge fuel h none right = .ok (h1, head1) := hrun
    rw [hfuel, merge_exhausted_left] at e
    have e1 := Except.ok.inj e
    exact ⟨mergeA_nil_left _ _, (congrArg Prod.fst e1).symm, (congrArg Prod.snd e1).symm⟩
  · intro he
    subst he
    have hright : right = none := by simpa [Seg] using hr
    subst hright
    refine ⟨mergeA_nil_right _ _, ?_⟩
    cases ls with
    | nil =>
      have hleft : left = none := by simpa [Seg] using hl
      subst hleft
      have e : merge fuel h none none = .ok (h1, head1) := hrun
      rw [hfuel, merge_exhausted_left] at e
      have e1 := Except.ok.inj e
      exact ⟨(congrArg Prod.fst e1).symm, (congrArg Prod.snd e1).symm⟩
    | cons a l =>
      have hleft : left = some a := ((Seg_cons _ _ _ _ _).1 hl).1
      subst hleft
      have e : merge fuel h (some a) none = .ok (h1, head1) := hrun
      rw [hfuel, merge_exhausted_right] at e
      have e1 := Except.ok.inj e
      exact ⟨(congrArg Prod.fst e1).symm, (congrArg Prod.snd e1).symm⟩
  · intro a l b r hls hrs
    subst hls hrs
    have hab : a ≠ b := by
      intro e
      subst e
      have := (List.nodup_append.1 hnd).2.2 (List.mem_cons_self a l) (List.mem_cons_self a r)
      exact this
    by_cases hlt : strcmp (valueAt h a) (valueAt h b) < 0
    · have hm := mergeA_cons_lt (valueAt h) a b l r hlt
      rw [hm] at hseg
      have hh : head1 = some a := ((Seg_cons _ _ _ _ _).1 hseg).1
      exact ⟨by simp [hh, hlt], fun _ => hm, fun hc => absurd hlt hc⟩
    · have hm := mergeA_cons_ge (valueAt h) a b l r hlt
      rw [hm] at hseg
      have hh : head1 = some b := ((Seg_cons _ _ _ _ _).1 hseg).1
      refine ⟨?_, fun hc => absurd hc hlt, fun _ => ⟨hh, hm⟩⟩
      simp only [hh, hlt, iff_false]
      intro e
      exact hab (Option.some.inj e).symm

theorem merge_tie_break_witness :
    Seg exampleTwoChains (some 1) [1, 2] none ∧ Seg exampleTwoChains (some 3) [3, 4] none ∧
    ([1, 2] ++ [3, 4]).Nodup ∧ [1, 2].length + [3, 4].length < 5 ∧
    (∃ h1 head1, merge 5 exampleTwoChains (some 1) (some 3) = .ok (h1, head1) ∧
      Seg h1 head1 (mergeA (valueAt exampleTwoChains) [1, 2] [3, 4]) none ∧
      SameValues exampleTwoChains h1 ∧
      (([1, 2] : List Nat) = [] →
        mergeA (valueAt exampleTwoChains) [1, 2] [3, 4] = [3, 4] ∧ h1 = exampleTwoChains ∧
          head1 = some 3) ∧
      (([3, 4] : List Nat) = [] →
        mergeA (valueAt exampleTwoChains) [1, 2] [3, 4] = [1, 2] ∧ h1 = exampleTwoChains ∧
          head1 = some 1) ∧
      (∀ a l b r, [1, 2] = a :: l → [3, 4] = b :: r →
        (head1 = some a ↔
          strcmp (valueAt exampleTwoChains a) (valueAt exampleTwoChains b) < 0) ∧
        (strcmp (valueAt exampleTwoChains a) (valueAt exampleTwoChains b) < 0 →
          mergeA (valueAt exampleTwoChains) [1, 2] [3, 4] =
            a :: mergeA (valueAt exampleTwoChains) l (b :: r)) ∧
        (¬ strcmp (valueAt exampleTwoChains a) (valueAt exampleTwoChains b) < 0 →
          head1 = some b ∧
            mergeA (valueAt exampleTwoChains) [1, 2] [3, 4] =
              b :: mergeA (valueAt exampleTwoChains) (a :: l) r))) ∧
    (∃ h1, merge 5 exampleTwoChains (some 1) (some 3) = .ok (h1, some 3) ∧
      walk 4 h1 (some 3) = [3, 1, 4, 2]) :=
  ⟨by decide, by decide, by decide, by decide,
    merge_tie_break 5 exampleTwoChains (some 1) (some 3) [1, 2] [3, 4] (by decide) (by decide)
      (by decide) (by decide),
    ⟨_, rfl, by decide⟩⟩

/-- C13 (the code departs from the claim): the queue returned by `q_new` satisfies
"`size` is 0 iff `head` and `tail` are both `NULL`", and so does the one-element queue, but
after `q_remove_head` has removed its only element `size` is 0 and `head` is `NULL` while
`tail` still points at the freed element, so the predicate no longer holds. -/
theorem q_remove_head_breaks_empty_iff :
    (∃ q0, (q_new emptyHeap true).q = some q0 ∧ EmptyIff q0) ∧
    (∃ q, exampleA.q = some q ∧ EmptyIff q) ∧
    ∃ r q1, q_remove_head exampleA none 0 = .ok r ∧ r.ret = true ∧ r.mem.q = some q1 ∧
      q1.size = 0 ∧ q1.head = none ∧ q1.tail = some 1 ∧ ¬ EmptyIff q1 :=
  ⟨⟨_, rfl, by decide⟩, ⟨_, rfl, by decide⟩, _, _, rfl, rfl, rfl, rfl, rfl, rfl, by decide⟩

/-! ## Chains of reachable memories -/

theorem follow_seg : ∀ (k : Nat) (h : Heap) (p : Ptr) (as : List Nat),
    Seg h p as none → follow k h p = as[k]?
  | 0, h, p, as, hs => by
    simp [follow, Seg_head h as p hs, List.head?_eq_getElem?]
  | k + 1, h, p, [], hs => by
    rw [Seg_nil] at hs
    simp [follow, hs]
  | k + 1, h, p, a :: as, hs => by
    rw [Seg_cons] at hs
    obtain ⟨hp, n, hn, hr⟩ := hs
    simp [follow, hp, hn, follow_seg k h n.next as hr]

theorem reachable_exampleA : Reachable exampleA :=
  Reachable.insert_head (q_new emptyHeap true) exampleA [97] (some 1) true true
    (Reachable.new emptyHeap true) rfl rfl

theorem reachable_exampleARemoved : Reachable exampleARemoved :=
  Reachable.remove_head exampleA none 0 ⟨true, exampleARemoved, none⟩ reachable_exampleA rfl

theorem reachable_exampleCAB : Reachable exampleCAB :=
  Reachable.insert_tail
    (afterOps [.insert_tail [99] (some 1) true, .insert_tail [97] (some 2) true])
    exampleCAB [98] (some 3) true true
    (Reachable.insert_tail (afterOps [.insert_tail [99] (some 1) true]) _ [97] (some 2)
      true true
      (Reachable.insert_tail (q_new emptyHeap true) _ [99] (some 1) true true
        (Reachable.new emptyHeap true) rfl rfl)
      rfl rfl)
    rfl rfl

/-- C14: in a memory reachable from `q_new` by the public operations, the chain from
`head` is a finite list of distinct live elements ending in `NULL` (so it has no cycle),
following `next` from `head` meets exactly these elements, and `size` is their number. -/
theorem reachable_size_is_chain_length (m : Mem) (q : Queue) (hr : Reachable m)
    (hq : m.q = some q) :
    ∃ as, Seg m.heap q.head as none ∧ as.Nodup ∧ q.size = (as.length : Int) ∧
      (∀ a, a ∈ as → ∃ n, m.heap a = some n) ∧
      (∀ fuel, as.length ≤ fuel → walk fuel m.heap q.head = as) ∧
      follow as.length m.heap q.head = none := by
  obtain ⟨as, _, hseg, hsize, _⟩ := reachable_present m q hr hq
  refine ⟨as, hseg, Seg_nodup _ _ _ hseg, hsize, fun a ha => Seg_live _ _ _ _ a hseg ha,
    fun fuel hf => walk_spec fuel _ _ _ hseg hf, ?_⟩
  rw [follow_seg _ _ _ _ hseg]
  simp

theorem reachable_size_is_chain_length_witness :
    Reachable exampleCAB ∧ exampleCAB.q = some ⟨some 1, some 3, 3⟩ ∧
    (∃ as, Seg exampleCAB.heap (some 1) as none ∧ as.Nodup ∧ (3 : Int) = (as.length : Int) ∧
      (∀ a, a ∈ as → ∃ n, exampleCAB.heap a = some n) ∧
      (∀ fuel, as.length ≤ fuel → walk fuel exampleCAB.heap (some 1) = as) ∧
      follow as.length exampleCAB.heap (some 1) = none) ∧
    walk 10 exampleCAB.heap (some 1) = [1, 2, 3] :=
  ⟨reachable_exampleCAB, by decide,
    reachable_size_is_chain_length exampleCAB ⟨some 1, some 3, 3⟩ reachable_exampleCAB
      (by decide),
    by decide⟩

/-- C15 as stated fails: in the reachable one-element queue `size` is 1, and following
`next` from `head` exactly once reaches `NULL`, not `tail`. -/
theorem follow_size_times_is_not_tail :
    Reachable exampleA ∧ exampleA.q = some ⟨some 1, some 1, 1⟩ ∧
    follow 1 exampleA.heap (some 1) = none ∧
    follow 1 exampleA.heap (some 1) ≠ (some 1 : Ptr) :=
  ⟨reachable_exampleA, by decide, by decide, by decide⟩

/-- C15 amended: in a memory reachable from `q_new` by the public operations with
`size > 0`, following `next` from `head` exactly `size - 1` times reaches `tail`, the
`next` link of `tail` is `NULL`, and following `next` exactly `size` times reaches
`NULL`. -/
theorem reachable_tail_is_last (m : Mem) (q : Queue) (hr : Reachable m) (hq : m.q = some q)
    (hpos : 0 < q.size) :
    follow (q.size.toNat - 1) m.heap q.head = q.tail ∧
    (∃ t n, q.tail = some t ∧ m.heap t = some n ∧ n.next = none) ∧
    follow q.size.toNat m.heap q.head = none := by
  obtain ⟨as, _, hseg, hsize, htail⟩ := reachable_present m q hr hq
  have hlen : q.size.toNat = as.length := by rw [hsize]; simp
  have hne : as ≠ [] := by
    intro he; subst he; simp at hsize; omega
  have ht := htail hne
  refine ⟨?_, ?_, ?_⟩
  · rw [hlen, follow_seg _ _ _ _ hseg, ht, List.getLast?_eq_getElem?]
  · have hdl : as = as.dropLast ++ [as.getLast hne] := (List.dropLast_append_getLast hne).symm
    rw [hdl] at hseg
    obtain ⟨n, hn, hnn⟩ := Seg_last _ _ _ _ hseg
    exact ⟨as.getLast hne, n, by rw [ht, List.getLast?_eq_getLast _ hne], hn, hnn⟩
  · rw [hlen, follow_seg _ _ _ _ hseg]; simp

theorem reachable_tail_is_last_witness :
    Reachable exampleCAB ∧ exampleCAB.q = some ⟨some 1, some 3, 3⟩ ∧ (0 : Int) < 3 ∧
    (follow ((3 : Int).toNat - 1) exampleCAB.heap (some 1) = some 3 ∧
      (∃ t n, (some 3 : Ptr) = some t ∧ exampleCAB.heap t = some n ∧ n.next = none) ∧
      follow (3 : Int).toNat exampleCAB.heap (some 1) = none) :=
  ⟨reachable_exampleCAB, by decide, by decide,
    reachable_tail_is_last exampleCAB ⟨some 1, some 3, 3⟩ reachable_exampleCAB (by decide)
      (by decide)⟩

theorem q_insert_head_returns (m : Mem) (s : Text) (na : Ptr) (vo : Bool)
    (hm : m.q = none ∨ ∃ as, Wf m as) (hfr : freshAt m na) :
    ∃ r m1, q_insert_head m s na vo = .ok (r, m1) := by
  have hfresh : ∀ a, na = some a → m.heap a = none := by
    intro a ha; subst ha; exact hfr
  by_cases hfail : m.q = none ∨ na = none ∨ vo = false
  · exact ⟨false, m, q_insert_head_fail m s na vo hfail hfresh⟩
  · simp only [not_or] at hfail
    obtain ⟨hq, hna, hvo⟩ := hfail
    obtain ⟨q, hq⟩ := Option.ne_none_iff_exists.1 hq
    replace hq := hq.symm
    obtain ⟨a, ha⟩ := Option.ne_none_iff_exists.1 hna
    have hvo : vo = true := by simpa using hvo
    subst ha hvo
    obtain ⟨as, hw⟩ := hm.resolve_left (by simp [hq])
    obtain ⟨m2, _, hrun2, _⟩ := q_insert_head_spec m q as s a hq hw (hfresh a rfl)
    exact ⟨true, m2, hrun2⟩

theorem q_insert_tail_returns (m : Mem) (s : Text) (na : Ptr) (vo : Bool)
    (hm : m.q = none ∨ ∃ as, Wf m as) (hfr : freshAt m na) :
    ∃ r m1, q_insert_tail m s na vo = .ok (r, m1) := by
  have hfresh : ∀ a, na = some a → m.heap a = none := by
    intro a ha; subst ha; exact hfr
  by_cases hfail : m.q = none ∨ na = none ∨ vo = false
  · exact ⟨false, m, q_insert_tail_fail m s na vo hfail hfresh⟩
  · simp only [not_or] at hfail
    obtain ⟨hq, hna, hvo⟩ := hfail
    obtain ⟨q, hq⟩ := Option.ne_none_iff_exists.1 hq
    replace hq := hq.symm
    obtain ⟨a, ha⟩ := Option.ne_none_iff_exists.1 hna
    have hvo : vo = true := by simpa using hvo
    subst ha hvo
    obtain ⟨as, hw⟩ := hm.resolve_left (by simp [hq])
    obtain ⟨m2, _, hrun2, _⟩ := q_insert_tail_spec m q as s a hq hw (hfresh a rfl)
    exact ⟨true, m2, hrun2⟩

/-- C16: on an absent queue or a well-formed present one, with an allocator that hands out
only fresh elements, `q_insert_head` and `q_insert_tail` each return; the result is false
exactly when the queue is absent or the allocation of the element or of its value failed,
and then the memory (heap, head, tail, size) is unchanged; otherwise the result is true. -/
theorem insert_false_iff (m : Mem) (s : Text) (na : Ptr) (vo : Bool)
    (hm : m.q = none ∨ ∃ as, Wf m as) (hfr : freshAt m na) :
    (∃ r m1, q_insert_head m s na vo = .ok (r, m1) ∧
      (r = false ↔ (m.q = none ∨ na = none ∨ vo = false)) ∧
      (r = false → m1 = m) ∧ (r = true ∨ r = false)) ∧
    (∃ r m1, q_insert_tail m s na vo = .ok (r, m1) ∧
      (r = false ↔ (m.q = none ∨ na = none ∨ vo = false)) ∧
      (r = false → m1 = m) ∧ (r = true ∨ r = false)) := by
  constructor
  · obtain ⟨r, m1, hrun⟩ := q_insert_head_returns m s na vo hm hfr
    obtain ⟨_, h2, h3⟩ := insert_head_preserves m m1 s na vo r hm hfr hrun
    exact ⟨r, m1, hrun, h2, h3, by cases r <;> simp⟩
  · obtain ⟨r, m1, hrun⟩ := q_insert_tail_returns m s na vo hm hfr
    obtain ⟨_, h2, h3⟩ := insert_tail_preserves m m1 s na vo r hm hfr hrun
    exact ⟨r, m1, hrun, h2, h3, by cases r <;> simp⟩

theorem insert_false_iff_witness :
    (exampleCAB.q = none ∨ ∃ as, Wf exampleCAB as) ∧ freshAt exampleCAB (some 4) ∧
    ((∃ r m1, q_insert_head exampleCAB [100] (some 4) false = .ok (r, m1) ∧
      (r = false ↔ (exampleCAB.q = none ∨ (some 4 : Ptr) = none ∨ false = false)) ∧
      (r = false → m1 = exampleCAB) ∧ (r = true ∨ r = false)) ∧
    (∃ r m1, q_insert_tail exampleCAB [100] (some 4) false = .ok (r, m1) ∧
      (r = false ↔ (exampleCAB.q = none ∨ (some 4 : Ptr) = none ∨ false = false)) ∧
      (r = false → m1 = exampleCAB) ∧ (r = true ∨ r = false))) :=
  ⟨Or.inr ⟨[1, 2, 3], by decide⟩, by decide,
    insert_false_iff exampleCAB [100] (some 4) false (Or.inr ⟨[1, 2, 3], by decide⟩)
      (by decide)⟩

/-! ## The tail after `q_sort` -/

theorem strcmp_self : ∀ (s : Text), strcmp s s = 0
  | [] => rfl
  | a :: as => by simp [strcmp, strcmp_self as]

theorem q_sort_run (fuel : Nat) (m m1 : Mem) (q : Queue) (a : Nat) (hq : m.q = some q)
    (hh : q.head = some a) (hrun : q_sort fuel m = .ok m1) :
    ∃ h1 head t, mergeSort fuel fuel m.heap q.head = .ok (h1, head) ∧
      tail_walk fuel h1 q.tail = .ok t ∧
      m1 = { heap := h1, q := some { head := head, tail := t, size := q.size } } := by
  simp only [q_sort, hq, hh] at hrun
  rw [hh]
  cases hs : mergeSort fuel fuel m.heap (some a) with
  | error e => simp [hs] at hrun
  | ok p =>
    obtain ⟨h1, head⟩ := p
    simp only [hs] at hrun
    cases ht : tail_walk fuel h1 q.tail with
    | error e => simp [ht] at hrun
    | ok t =>
      simp only [ht] at hrun
      exact ⟨h1, head, t, rfl, ht, (Except.ok.inj hrun).symm⟩

/-- C17: for a non-empty well-formed queue and with enough fuel, after `q_sort` the `tail`
reference is the last element of the sorted chain: it is met when walking from the new
head, its `next` link is `NULL`, every element's value is at most its value under
`strcmp`, and it is where the walk that `q_sort` starts at the old tail element ends. -/
theorem q_sort_tail_is_last (fuel : Nat) (m : Mem) (q : Queue) (a : Nat) (as : List Nat)
    (hq : m.q = some q) (hwf : Wf m (a :: as)) (hf : (a :: as).length < fuel) :
    ∃ m1 q1 out t n, q_sort fuel m = .ok m1 ∧ m1.q = some q1 ∧ Wf m1 out ∧
      q1.tail = some t ∧ out.getLast? = some t ∧ t ∈ walk fuel m1.heap q1.head ∧
      m1.heap t = some n ∧ n.next = none ∧
      (∀ x, x ∈ out → TextLe (valueAt m1.heap x) n.value) ∧
      tail_walk fuel m1.heap q.tail = .ok (some t) := by
  obtain ⟨m1, out, hrun, hwf1, hperm, hsort, hsv, _, _⟩ := q_sort_spec fuel m _ hwf hf
  obtain ⟨hseg, _, _⟩ := Wf_of_q m q _ hq hwf
  have hh : q.head = some a := ((Seg_cons _ _ _ _ _).1 hseg).1
  obtain ⟨h1, head, t0, _, hwalk, hm1⟩ := q_sort_run fuel m m1 q a hq hh hrun
  obtain ⟨q1, hq1, hseg1, _, htail1⟩ := (Wf_iff m1 out).1 hwf1
  have hne : out ≠ [] := by
    intro he; have := hperm.length_eq; rw [he] at this; simp at this
  have hdl : out = out.dropLast ++ [out.getLast hne] := (List.dropLast_append_getLast hne).symm
  have hlast : out.getLast? = some (out.getLast hne) := List.getLast?_eq_getLast _ hne
  have hseg2 := hseg1
  rw [hdl] at hseg2
  obtain ⟨n, hn, hnn⟩ := Seg_last _ _ _ _ hseg2
  have hheap : m1.heap = h1 := by rw [hm1]
  have htq : q1.tail = t0 := by
    rw [hm1] at hq1
    simp only [Option.some.injEq] at hq1
    rw [← hq1]
  refine ⟨m1, q1, out, out.getLast hne, n, hrun, hq1, hwf1, ?_, hlast, ?_, hn, hnn, ?_, ?_⟩
  · rw [htail1 hne, hlast]
  · rw [walk_spec fuel _ _ _ hseg1 (by rw [hperm.length_eq]; omega)]
    exact List.getLast_mem hne
  · intro x hx
    have hv : n.value = valueAt m1.heap (out.getLast hne) := (valueAt_live _ _ _ hn).symm
    rw [hv, hsv.valueAt]
    rw [hdl] at hsort hx
    rcases List.mem_append.1 hx with hx1 | hx1
    · have := (List.pairwise_append.1 hsort).2.2 x hx1 (out.getLast hne) (by simp)
      exact this
    · have : x = out.getLast hne := by simpa using hx1
      rw [this]
      show strcmp _ _ ≤ 0
      rw [strcmp_self]
  · rw [hheap, hwalk, ← htq, htail1 hne, hlast]

theorem q_sort_tail_is_last_witness :
    exampleCAB.q = some ⟨some 1, some 3, 3⟩ ∧ Wf exampleCAB (1 :: [2, 3]) ∧
    (1 :: [2, 3]).length < 4 ∧
    (∃ m1 q1 out t n, q_sort 4 exampleCAB = .ok m1 ∧ m1.q = some q1 ∧ Wf m1 out ∧
      q1.tail = some t ∧ out.getLast? = some t ∧ t ∈ walk 4 m1.heap q1.head ∧
      m1.heap t = some n ∧ n.next = none ∧
      (∀ x, x ∈ out → TextLe (valueAt m1.heap x) n.value) ∧
      tail_walk 4 m1.heap (some 3) = .ok (some t)) ∧
    (q_sort 4 exampleCAB).toOption.map (fun m1 => m1.q) = some (some ⟨some 2, some 1, 3⟩) :=
  ⟨by decide, by decide, by decide,
    q_sort_tail_is_last 4 exampleCAB ⟨some 1, some 3, 3⟩ 1 [2, 3] (by decide) (by decide)
      (by decide),
    by decide⟩

/-- C18: `q_sort` is not stable: on the queue holding the text "a" twice, at elements 1
then 2, it returns the chain 2 then 1, so the two equal-valued elements come out in the
opposite order. -/
theorem q_sort_not_stable :
    Wf exampleDup [1, 2] ∧ values exampleDup.heap [1, 2] = [[97], [97]] ∧
    ∃ m1, q_sort 3 exampleDup = .ok m1 ∧ Wf m1 [2, 1] ∧
      values m1.heap [2, 1] = [[97], [97]] ∧ m1.q = some ⟨some 2, some 1, 2⟩ :=
  ⟨by decide, by decide, _, rfl, by decide, by decide, by decide⟩

/-! ## The split of `mergeSort` -/

/-- C19: on a chain of length `n` below the budgets `mergeSort` returns, and so does
`q_sort` on a well-formed queue; when `n ≥ 2` the slow/fast walk stops at the element
after which the chain is cut into the first `(n + 1) / 2` elements and the remaining
`n / 2` elements, both parts non-empty and strictly shorter than `n`. -/
theorem mergeSort_split_terminates (depth fuel : Nat) (h : Heap) (head : Ptr)
    (as : List Nat) (hs : Seg h head as none) (hd : as.length < depth)
    (hf : as.length < fuel) :
    (∃ h1 head1, mergeSort depth fuel h head = .ok (h1, head1)) ∧
    (∀ m, Wf m as → ∃ m1, q_sort fuel m = .ok m1) ∧
    (2 ≤ as.length → ∃ a hn s sn, head = some a ∧ h a = some hn ∧
      split_walk fuel h head hn.next = .ok (some s) ∧ h s = some sn ∧
      Seg (update h s (some { sn with next := none })) head
        (as.take ((as.length + 1) / 2)) none ∧
      Seg (update h s (some { sn with next := none })) sn.next
        (as.drop ((as.length + 1) / 2)) none ∧
      (as.take ((as.length + 1) / 2)).length = (as.length + 1) / 2 ∧
      (as.drop ((as.length + 1) / 2)).length = as.length / 2 ∧
      0 < (as.length + 1) / 2 ∧ (as.length + 1) / 2 < as.length ∧
      0 < as.length / 2 ∧ as.length / 2 < as.length) := by
  refine ⟨?_, ?_, ?_⟩
  · obtain ⟨h1, head1, _, hrun, _⟩ := mergeSort_spec depth fuel h head as hs hd hf
    exact ⟨h1, head1, hrun⟩
  · intro m hwf
    obtain ⟨m1, _, hrun, _⟩ := q_sort_spec fuel m as hwf hf
    exact ⟨m1, hrun⟩
  · intro h2
    match as, hs, h2 with
    | a :: b :: rest, hs, _ =>
      have hs0 := hs
      rw [Seg_cons] at hs
      obtain ⟨hhead, hn, hhn, hs1⟩ := hs
      have hklt : (b :: rest).length / 2 < (a :: b :: rest).length := by
        simp only [List.length_cons]; omega
      have hwalk := split_walk_spec fuel h (a :: b :: rest) (b :: rest) head hn.next
        hs0 hs1 hklt (by simp only [List.length_cons] at hf ⊢; omega)
      obtain ⟨s, hsk⟩ : ∃ s, (a :: b :: rest)[(b :: rest).length / 2]? = some s :=
        ⟨_, List.getElem?_eq_getElem hklt⟩
      rw [hsk] at hwalk
      obtain ⟨_, sn, hsn, hL, hR⟩ :=
        Seg_split h (a :: b :: rest) head ((b :: rest).length / 2) s hs0 hsk
      have hk1 : (b :: rest).length / 2 + 1 = ((a :: b :: rest).length + 1) / 2 := by
        simp only [List.length_cons]; omega
      have htake : (a :: b :: rest).take ((b :: rest).length / 2) ++ [s]
          = (a :: b :: rest).take (((a :: b :: rest).length + 1) / 2) := by
        rw [← hk1, List.take_succ, hsk]; rfl
      rw [htake] at hL
      rw [hk1] at hR
      refine ⟨a, hn, s, sn, hhead, hhn, hwalk, hsn, hL, hR, ?_, ?_, ?_, ?_, ?_, ?_⟩
      · rw [List.length_take]; simp only [List.length_cons]; omega
      · rw [List.length_drop]; simp only [List.length_cons]; omega
      · simp only [List.length_cons]; omega
      · simp only [List.length_cons]; omega
      · simp only [List.length_cons]; omega
      · simp only [List.length_cons]; omega

theorem mergeSort_split_terminates_witness :
    Seg exampleCAB.heap (some 1) [1, 2, 3] none ∧ [1, 2, 3].length < 4 ∧
    ((∃ h1 head1, mergeSort 4 4 exampleCAB.heap (some 1) = .ok (h1, head1)) ∧
    (∀ m, Wf m [1, 2, 3] → ∃ m1, q_sort 4 m = .ok m1) ∧
    (2 ≤ [1, 2, 3].length → ∃ a hn s sn, (some 1 : Ptr) = some a ∧
      exampleCAB.heap a = some hn ∧
      split_walk 4 exampleCAB.heap (some 1) hn.next = .ok (some s) ∧
      exampleCAB.heap s = some sn ∧
      Seg (update exampleCAB.heap s (some { sn with next := none })) (some 1)
        ([1, 2, 3].take (([1, 2, 3].length + 1) / 2)) none ∧
      Seg (update exampleCAB.heap s (some { sn with next := none })) sn.next
        ([1, 2, 3].drop (([1, 2, 3].length + 1) / 2)) none ∧
      ([1, 2, 3].take (([1, 2, 3].length + 1) / 2)).length = ([1, 2, 3].length + 1) / 2 ∧
      ([1, 2, 3].drop (([1, 2, 3].length + 1) / 2)).length = [1, 2, 3].length / 2 ∧
      0 < ([1, 2, 3].length + 1) / 2 ∧ ([1, 2, 3].length + 1) / 2 < [1, 2, 3].length ∧
      0 < [1, 2, 3].length / 2 ∧ [1, 2, 3].length / 2 < [1, 2, 3].length)) ∧
    split_walk 4 exampleCAB.heap (some 1) (some 2) = .ok (some 2) :=
  ⟨by decide, by decide,
    mergeSort_split_terminates 4 4 exampleCAB.heap (some 1) [1, 2, 3] (by decide) (by decide)
      (by decide),
    rfl⟩

/-! ## Safety of the tail dereferences -/

/-- C20: in a memory reachable from `q_new` by the public operations, `head` is `NULL`
exactly when `size` is 0, and when `size > 0` the `tail` reference is the live last
element of the chain; so `q_insert_tail` returns without a fault for every fresh
allocation result, and `q_sort` returns without a fault for every budget above `size`,
also after `q_remove_head` has emptied the queue and left `tail` stale. -/
theorem reachable_tail_deref_safe (m : Mem) (q : Queue) (hr : Reachable m)
    (hq : m.q = some q) :
    (q.head = none ↔ q.size = 0) ∧
    (0 < q.size → ∃ t n, q.tail = some t ∧ m.heap t = some n ∧ n.next = none ∧
      follow (q.size.toNat - 1) m.heap q.head = some t) ∧
    (∀ s na vo, freshAt m na → ∃ r m1, q_insert_tail m s na vo = .ok (r, m1)) ∧
    (∀ fuel : Nat, q.size < (fuel : Int) → ∃ m1, q_sort fuel m = .ok m1) := by
  obtain ⟨as, hwf, hseg, hsize, htail⟩ := reachable_present m q hr hq
  have hlen : q.size.toNat = as.length := by rw [hsize]; simp
  refine ⟨?_, ?_, ?_, ?_⟩
  · rw [Seg_head _ _ _ hseg, hsize]
    cases as <;> simp
    omega
  · intro hpos
    have hne : as ≠ [] := by
      intro he; subst he; simp at hsize; omega
    have ht := htail hne
    have hdl : as = as.dropLast ++ [as.getLast hne] := (List.dropLast_append_getLast hne).symm
    have hseg2 := hseg
    rw [hdl] at hseg2
    obtain ⟨n, hn, hnn⟩ := Seg_last _ _ _ _ hseg2
    have hl : as.getLast? = some (as.getLast hne) := List.getLast?_eq_getLast _ hne
    refine ⟨as.getLast hne, n, by rw [ht, hl], hn, hnn, ?_⟩
    rw [hlen, follow_seg _ _ _ _ hseg, ← hl, List.getLast?_eq_getElem?]
  · intro s na vo hfr
    exact q_insert_tail_returns m s na vo (Or.inr ⟨as, hwf⟩) hfr
  · intro fuel hfuel
    obtain ⟨m1, _, hrun, _⟩ := q_sort_spec fuel m as hwf (by rw [hsize] at hfuel; omega)
    exact ⟨m1, hrun⟩

theorem reachable_tail_deref_safe_witness :
    Reachable exampleARemoved ∧ exampleARemoved.q = some ⟨none, some 1, 0⟩ ∧
    exampleARemoved.heap 1 = none ∧
    (((none : Ptr) = none ↔ (0 : Int) = 0) ∧
    ((0 : Int) < 0 → ∃ t n, (some 1 : Ptr) = some t ∧ exampleARemoved.heap t = some n ∧
      n.next = none ∧ follow ((0 : Int).toNat - 1) exampleARemoved.heap none = some t) ∧
    (∀ s na vo, freshAt exampleARemoved na →
      ∃ r m1, q_insert_tail exampleARemoved s na vo = .ok (r, m1)) ∧
    (∀ fuel : Nat, (0 : Int) < (fuel : Int) → ∃ m1, q_sort fuel exampleARemoved = .ok m1)) ∧
    (q_insert_tail exampleARemoved [98] (some 1) true).toOption.map
      (fun p => (p.1, contents 2 p.2)) = some (true, [[98]]) :=
  ⟨reachable_exampleARemoved, by decide, by decide,
    reachable_tail_deref_safe exampleARemoved ⟨none, some 1, 0⟩ reachable_exampleARemoved
      (by decide),
    by decide⟩

end QueueC
